import Mathlib

/-!
# Verification of a first-fit arena allocator

Shallow embedding of `src/table-0/main.c`: a fixed 10,240-byte memory pool
managed by an embedded doubly-linked list of block headers
(`Memory_Init`, `My_Malloc`, `My_Free`).

Memory model: the pool is a statically allocated (hence zero-initialized)
byte array at base address `0`.  We model its contents at header
granularity: a `Heap` maps byte addresses (as `Int`, so that out-of-pool
pointer arithmetic such as `ptr - sizeof(header)` below the pool base is
representable) to `MemoryBlockHeader` records.  Reading an address that
was never written yields the all-zero header, exactly as reading the
zero-initialized static array does.  `size_t` is 64 bits wide; additions
that can wrap are reduced modulo `2^64`, and subtractions appear only
under the guards the C code itself establishes.  On the target LP64 ABI
`sizeof(MemoryBlockHeader) = 32` (8-byte `size_t`, 4-byte enum plus
padding, two 8-byte pointers); the literal `32` below is this header size.

The C `while` loop of `My_Malloc` is embedded with a fuel parameter
(`FUEL = 10241`); a well-formed chain has at most 320 blocks
(each block occupies at least the 32 header bytes of the 10,240-byte
pool), so the fuel is never exhausted on states satisfying the invariant.
-/

/-- `MEMORY_POOL_SIZE` from the source: `1024 * 10` bytes. -/
def POOL_SIZE : Nat := 1024 * 10

/-- `sizeof (MemoryBlockHeader)` (= `MIN_BLOCK_SIZE`) on the LP64 target: 32 bytes. -/
abbrev headerSize : Nat := 32

/-- Modulus of `size_t` arithmetic (64-bit). -/
def SIZE_MOD : Nat := 2 ^ 64

/-- Block status enumeration: `FREE = 0`, `ALLOCATED = 1`. -/
inductive BlockStatus where
  | FREE
  | ALLOCATED
deriving DecidableEq

/-- The block header `struct MemoryBlockHeader`: data-region size (excluding
the header), status, and address-ordered successor/predecessor pointers
(`none` models `NULL`). -/
structure MemoryBlockHeader where
  size : Nat
  status : BlockStatus
  next : Option Int
  prev : Option Int
deriving DecidableEq

/-- The all-zero header: contents of zero-initialized static storage
(`size = 0`, `status = FREE = 0`, `next = prev = NULL`). -/
def zeroHeader : MemoryBlockHeader :=
  ⟨0, BlockStatus.FREE, none, none⟩

/-- Header-granularity contents of the memory pool: an association list from
byte addresses to headers; later writes shadow earlier ones. -/
def Heap : Type := List (Int × MemoryBlockHeader)

instance : DecidableEq Heap := by
  unfold Heap; infer_instance

/-- Read the header stored at address `a`; unwritten addresses hold the
all-zero header (static storage is zero-initialized). -/
def Heap.read : Heap → Int → MemoryBlockHeader
  | [], _ => zeroHeader
  | (b, v) :: rest, a => if b = a then v else Heap.read rest a

/-- Store a header at address `a`. -/
def Heap.write (h : Heap) (a : Int) (v : MemoryBlockHeader) : Heap :=
  (a, v) :: h

/-- Write the `size` field of the header at `a` (read-modify-write). -/
def Heap.setSize (h : Heap) (a : Int) (n : Nat) : Heap :=
  h.write a { h.read a with size := n }

/-- Write the `status` field of the header at `a`. -/
def Heap.setStatus (h : Heap) (a : Int) (s : BlockStatus) : Heap :=
  h.write a { h.read a with status := s }

/-- Write the `next` field of the header at `a`. -/
def Heap.setNext (h : Heap) (a : Int) (n : Option Int) : Heap :=
  h.write a { h.read a with next := n }

/-- Write the `prev` field of the header at `a`. -/
def Heap.setPrev (h : Heap) (a : Int) (p : Option Int) : Heap :=
  h.write a { h.read a with prev := p }

/-- Process-wide allocator state: the pool contents (`memory_pool`), the
`first_block` pointer and the `is_initialized` flag. -/
structure AllocState where
  heap : Heap
  firstBlock : Option Int
  isInitialized : Bool
deriving DecidableEq

/-- The state at program start: zeroed pool, `first_block = NULL`,
`is_initialized = 0`. -/
def initState : AllocState :=
  ⟨[], none, false⟩

/-- `Memory_Init` (source lines 33–50): on the first call, place one FREE
block of size `MEMORY_POOL_SIZE - sizeof(MemoryBlockHeader)` at the pool
base; later calls return immediately. -/
def Memory_Init (st : AllocState) : AllocState :=
  if st.isInitialized then st
  else
    let h0 := st.heap.setSize 0 (POOL_SIZE - 32)
    let h1 := h0.setStatus 0 BlockStatus.FREE
    let h2 := h1.setNext 0 none
    let h3 := h2.setPrev 0 none
    { heap := h3, firstBlock := some 0, isInitialized := true }

/-- The 4-byte round-up `size = (size + 3) & ~3` of `My_Malloc`, in
64-bit `size_t` arithmetic (`~3` is `2^64 - 4`; the sum wraps mod `2^64`). -/
def roundUp (s : Nat) : Nat :=
  ((s + 3) % SIZE_MOD) &&& (SIZE_MOD - 4)

/-- The `while` loop of `My_Malloc` (source lines 76–117): walk the chain
from `cur`; at the first FREE block with `size ≥ requested` either split it
(when `size ≥ requested + sizeof(header) + MIN_BLOCK_SIZE`) or allocate it
whole, and return the data-region pointer `cur + 32`.  `fuel` only bounds
the recursion; it is never exhausted on well-formed chains. -/
def mallocLoop (h : Heap) (size : Nat) : Option Int → Nat → Heap × Option Int
  | none, _ => (h, none)
  | some _, 0 => (h, none)
  | some cur, fuel + 1 =>
    let hdr := h.read cur
    if hdr.status = BlockStatus.FREE ∧ size ≤ hdr.size then
      if size + 32 + 32 ≤ hdr.size then
        -- split: carve a new FREE block right after the consumed region
        let newAddr : Int := cur + 32 + (size : Int)
        let h1 := h.setSize newAddr (hdr.size - size - 32)
        let h2 := h1.setStatus newAddr BlockStatus.FREE
        let h3 := h2.setNext newAddr hdr.next
        let h4 := h3.setPrev newAddr (some cur)
        let h5 := h4.setSize cur size
        let h6 := h5.setNext cur (some newAddr)
        let h7 :=
          match (h6.read newAddr).next with
          | none => h6
          | some nn => h6.setPrev nn (some newAddr)
        let h8 := h7.setStatus cur BlockStatus.ALLOCATED
        (h8, some (cur + 32))
      else
        (h.setStatus cur BlockStatus.ALLOCATED, some (cur + 32))
    else
      mallocLoop h size hdr.next fuel

/-- Fuel for chain traversals; a well-formed chain has at most 320 nodes. -/
def FUEL : Nat := 10241

/-- `My_Malloc` (source lines 53–121): implicit init, 4-byte round-up,
zero-size rejection, then the first-fit loop.  The returned pointer is
`none` on failure. -/
def My_Malloc (st : AllocState) (requested : Nat) : AllocState × Option Int :=
  let st1 := if st.isInitialized then st else Memory_Init st
  let size := roundUp requested
  if size = 0 then (st1, none)
  else
    let res := mallocLoop st1.heap size st1.firstBlock FUEL
    ({ st1 with heap := res.1 }, res.2)

/-- Forward coalescing step of `My_Free` (source lines 151–162): if the
successor exists and is FREE, absorb it into the block at `block`. -/
def fwdCoalesce (h : Heap) (block : Int) : Heap :=
  match (h.read block).next with
  | none => h
  | some nb =>
    if (h.read nb).status = BlockStatus.FREE then
      let h1 := h.setSize block (((h.read block).size + 32 + (h.read nb).size) % SIZE_MOD)
      let h2 := h1.setNext block ((h1.read nb).next)
      match (h2.read nb).next with
      | none => h2
      | some nn => h2.setPrev nn (some block)
    else h

/-- Backward coalescing step of `My_Free` (source lines 164–175): if the
predecessor exists and is FREE, absorb the block at `block` into it. -/
def bwdCoalesce (h : Heap) (block : Int) : Heap :=
  match (h.read block).prev with
  | none => h
  | some pb =>
    if (h.read pb).status = BlockStatus.FREE then
      let h1 := h.setSize pb (((h.read pb).size + 32 + (h.read block).size) % SIZE_MOD)
      let h2 := h1.setNext pb ((h1.read block).next)
      match (h2.read block).next with
      | none => h2
      | some bn => h2.setPrev bn (some pb)
    else h

/-- The heap mutation of a non-rejected `My_Free` call (source lines
148–175): mark the block FREE, coalesce forward, coalesce backward. -/
def freeHeap (h : Heap) (block : Int) : Heap :=
  bwdCoalesce (fwdCoalesce (h.setStatus block BlockStatus.FREE) block) block

/-- `My_Free` (source lines 124–176): `NULL` is a no-op; a pointer whose
header address `ptr - 32` falls outside `[pool_base, pool_base + POOL_SIZE)`
is rejected with a diagnostic and no mutation; otherwise mark the block
FREE and coalesce forward, then backward (`freeHeap`). -/
def My_Free (st : AllocState) (ptr : Option Int) : AllocState :=
  match ptr with
  | none => st
  | some p =>
    let block := p - 32
    if block < 0 ∨ (POOL_SIZE : Int) ≤ block then st
    else { st with heap := freeHeap st.heap block }

/-- Traversal of the block chain exactly as `Memory_Stats` walks it:
follow `next` pointers from `start`, collecting `(address, header)` pairs.
Returns `none` only when `fuel` runs out (which cannot happen on
well-formed chains). -/
def chainFrom (h : Heap) : Option Int → Nat → Option (List (Int × MemoryBlockHeader))
  | none, _ => some []
  | some _, 0 => none
  | some a, fuel + 1 =>
    match chainFrom h (h.read a).next fuel with
    | some rest => some ((a, h.read a) :: rest)
    | none => none

/-- The block chain of a state, from `first_block`. -/
def theChain (st : AllocState) : Option (List (Int × MemoryBlockHeader)) :=
  chainFrom st.heap st.firstBlock FUEL

/-! ## Abstract chain model

A well-formed pool is fully described by the list of `(size, status)`
pairs of its blocks in address order; addresses and link pointers are
determined by this list.  The pointer-level operations are proved to
act like pure functions on these lists. -/

/-- Abstract block: data-region size and status. -/
structure ABlock where
  size : Nat
  status : BlockStatus
deriving DecidableEq

/-- Total pool extent of a block list: every block contributes its header
(32 bytes) plus its data region. -/
def sumLen : List ABlock → Nat
  | [] => 0
  | b :: rest => 32 + b.size + sumLen rest

/-- The `next`-pointer value for a block whose successor list is `l` laid
out from `base'`; `na` is the pointer used when `l` is empty. -/
def nextOf (base' : Int) (na : Option Int) : List ABlock → Option Int
  | [] => na
  | _ :: _ => some base'

/-- Address of the first block of `l` when laid out from `base`
(`none` for the empty list). -/
def startOf (base : Int) (l : List ABlock) : Option Int :=
  nextOf base none l

/-- The `prev` pointer left for whatever follows `l` when `l` is laid out
from `base` with incoming `prev` pointer `pa`. -/
def prevOf (base : Int) (pa : Option Int) : List ABlock → Option Int
  | [] => pa
  | b :: rest => prevOf (base + 32 + (b.size : Int)) (some base) rest

/-- The concrete `(address, header)` pairs of `l` laid out from `base`,
with incoming `prev` pointer `pa` and final `next` pointer `na`. -/
def layoutTo : Int → Option Int → Option Int → List ABlock → List (Int × MemoryBlockHeader)
  | _, _, _, [] => []
  | base, pa, na, b :: rest =>
    (base, ⟨b.size, b.status, nextOf (base + 32 + (b.size : Int)) na rest, pa⟩)
      :: layoutTo (base + 32 + (b.size : Int)) (some base) na rest

/-- The heap stores exactly the layout of `l` from `base` at the layout's
addresses (other addresses are unconstrained: stale headers of absorbed
blocks legitimately persist in memory). -/
def Agrees (h : Heap) : Int → Option Int → Option Int → List ABlock → Prop
  | _, _, _, [] => True
  | base, pa, na, b :: rest =>
    h.read base = ⟨b.size, b.status, nextOf (base + 32 + (b.size : Int)) na rest, pa⟩
      ∧ Agrees h (base + 32 + (b.size : Int)) (some base) na rest

/-- The allocator invariant: the state is initialized, `first_block` is the
pool base, and the pool holds a nonempty chain `l` covering exactly
`POOL_SIZE` bytes. -/
def Models (st : AllocState) (l : List ABlock) : Prop :=
  st.isInitialized = true ∧ st.firstBlock = some 0 ∧ l ≠ [] ∧
    sumLen l = POOL_SIZE ∧ Agrees st.heap 0 none none l

/-- Abstract first-fit walk mirroring the `My_Malloc` loop: returns the
transformed block list and the data pointer. -/
def aMallocGo (s : Nat) : Int → List ABlock → Option (List ABlock × Int)
  | _, [] => none
  | base, b :: rest =>
    if b.status = BlockStatus.FREE ∧ s ≤ b.size then
      if s + 32 + 32 ≤ b.size then
        some (⟨s, BlockStatus.ALLOCATED⟩ :: ⟨b.size - s - 32, BlockStatus.FREE⟩ :: rest,
          base + 32)
      else
        some (⟨b.size, BlockStatus.ALLOCATED⟩ :: rest, base + 32)
    else
      match aMallocGo s (base + 32 + (b.size : Int)) rest with
      | none => none
      | some (l, r) => some (b :: l, r)

/-- Address of the first block of `l` that is FREE with `size ≥ s`
(the first-fit selection criterion). -/
def firstFit (s : Nat) : Int → List ABlock → Option Int
  | _, [] => none
  | base, b :: rest =>
    if b.status = BlockStatus.FREE ∧ s ≤ b.size then some base
    else firstFit s (base + 32 + (b.size : Int)) rest

/-- Abstract forward coalescing: absorb the successor when it is FREE. -/
def fwdMerge (b : ABlock) (l₂ : List ABlock) : ABlock × List ABlock :=
  match l₂ with
  | [] => (b, [])
  | b2 :: rest =>
    if b2.status = BlockStatus.FREE then (⟨b.size + 32 + b2.size, b.status⟩, rest)
    else (b, b2 :: rest)

/-- Abstract backward coalescing: absorb `b` into the last block of `l₁`
when that block is FREE. -/
def bwdMerge (l₁ : List ABlock) (b : ABlock) (l₂ : List ABlock) : List ABlock :=
  match l₁.getLast? with
  | none => b :: l₂
  | some pb =>
    if pb.status = BlockStatus.FREE then
      l₁.dropLast ++ ⟨pb.size + 32 + b.size, BlockStatus.FREE⟩ :: l₂
    else l₁ ++ b :: l₂

/-- Abstract effect of `My_Free` on the block decomposed as
`l₁ ++ b :: l₂`: mark `b` FREE, coalesce forward, then backward. -/
def freeResult (l₁ : List ABlock) (b : ABlock) (l₂ : List ABlock) : List ABlock :=
  let f := fwdMerge ⟨b.size, BlockStatus.FREE⟩ l₂
  bwdMerge l₁ f.1 f.2

/-- No two adjacent blocks are both FREE (the coalescing invariant). -/
def NoAdjFree (l : List ABlock) : Prop :=
  List.Chain' (fun x y => ¬(x.status = BlockStatus.FREE ∧ y.status = BlockStatus.FREE)) l

/-- Data-region addresses of the ALLOCATED blocks of `l` laid out from
`base` (the outstanding handles of a well-formed state). -/
def allocatedAddrs (base : Int) : List ABlock → List Int
  | [] => []
  | b :: rest =>
    (if b.status = BlockStatus.ALLOCATED then [base + 32] else [])
      ++ allocatedAddrs (base + 32 + (b.size : Int)) rest

/-- Run a list of allocation requests, threading the state and collecting
the returned pointers. -/
def runAllocs (st : AllocState) : List Nat → AllocState × List (Option Int)
  | [] => (st, [])
  | s :: ss =>
    let r := My_Malloc st s
    let rest := runAllocs r.1 ss
    (rest.1, r.2 :: rest.2)

/-- Release a list of pointers in order. -/
def runFrees (st : AllocState) : List Int → AllocState
  | [] => st
  | p :: ps => runFrees (My_Free st (some p)) ps

/-- The legitimate arguments of `release` on a state modeling `l`:
`NULL`, a pointer resolving outside the pool, or a genuine data-region
handle of a block of the chain. -/
def ValidFreeArg (l : List ABlock) (ptr : Option Int) : Prop :=
  ptr = none
    ∨ (∃ p : Int, ptr = some p ∧ (p - 32 < 0 ∨ (POOL_SIZE : Int) ≤ p - 32))
    ∨ (∃ l₁ b l₂, l = l₁ ++ b :: l₂ ∧ ptr = some ((sumLen l₁ : Int) + 32))

/-- The state right after startup initialization. -/
def readyState : AllocState := Memory_Init initState

/-- The geometric chain invariant stated exactly as the specification lists
it: the traversal from `first_block` yields a nonempty chain whose first
block sits at the arena base (address 0) with no predecessor, consecutive
blocks tile the arena with no gaps or overlaps (`addr + 32 + size` equals
the successor's address, `next` points at the successor and the
successor's `prev` points back), and the last block ends exactly at
`POOL_SIZE` with no successor. -/
def chainShape (st : AllocState) : Prop :=
  ∃ L : List (Int × MemoryBlockHeader), theChain st = some L ∧ L ≠ [] ∧
    L.head?.map Prod.fst = some 0 ∧
    L.head?.map (fun p => p.2.prev) = some none ∧
    L.getLast?.map (fun p => p.2.next) = some none ∧
    L.getLast?.map (fun p => p.1 + 32 + (p.2.size : Int)) = some (POOL_SIZE : Int) ∧
    List.Chain' (fun p q => p.1 + 32 + (p.2.size : Int) = q.1
      ∧ p.2.next = some q.1 ∧ q.2.prev = some p.1) L

/-! ## Basic heap lemmas -/

theorem Heap.read_write (h : Heap) (a x : Int) (v : MemoryBlockHeader) :
    (h.write a v).read x = if a = x then v else h.read x := by
  simp [Heap.write, Heap.read]

theorem Heap.read_setSize (h : Heap) (a x : Int) (n : Nat) :
    (h.setSize a n).read x =
      if a = x then { h.read a with size := n } else h.read x := by
  simp [Heap.setSize, Heap.read_write]

theorem Heap.read_setStatus (h : Heap) (a x : Int) (s : BlockStatus) :
    (h.setStatus a s).read x =
      if a = x then { h.read a with status := s } else h.read x := by
  simp [Heap.setStatus, Heap.read_write]

theorem Heap.read_setNext (h : Heap) (a x : Int) (n : Option Int) :
    (h.setNext a n).read x =
      if a = x then { h.read a with next := n } else h.read x := by
  simp [Heap.setNext, Heap.read_write]

theorem Heap.read_setPrev (h : Heap) (a x : Int) (p : Option Int) :
    (h.setPrev a p).read x =
      if a = x then { h.read a with prev := p } else h.read x := by
  simp [Heap.setPrev, Heap.read_write]

/-! ## Abstract-layer basic lemmas -/

theorem sumLen_nil : sumLen [] = 0 := rfl

theorem sumLen_cons (b : ABlock) (l : List ABlock) :
    sumLen (b :: l) = 32 + b.size + sumLen l := rfl

theorem sumLen_append (xs ys : List ABlock) :
    sumLen (xs ++ ys) = sumLen xs + sumLen ys := by
  induction xs with
  | nil => simp [sumLen]
  | cons b rest ih => simp [sumLen, ih]; omega

theorem length_le_sumLen (l : List ABlock) : 32 * l.length ≤ sumLen l := by
  induction l with
  | nil => simp [sumLen]
  | cons b rest ih => simp [sumLen, List.length_cons]; omega

theorem nextOf_nil (b : Int) (na : Option Int) : nextOf b na [] = na := rfl

theorem nextOf_cons (b : Int) (na : Option Int) (x : ABlock) (l : List ABlock) :
    nextOf b na (x :: l) = some b := rfl

theorem nextOf_ne_nil (b : Int) (na : Option Int) {l : List ABlock} (h : l ≠ []) :
    nextOf b na l = some b := by
  cases l with
  | nil => exact absurd rfl h
  | cons x rest => rfl

theorem prevOf_append (xs ys : List ABlock) (base : Int) (pa : Option Int) :
    prevOf base pa (xs ++ ys) = prevOf (base + (sumLen xs : Int)) (prevOf base pa xs) ys := by
  induction xs generalizing base pa with
  | nil => simp [prevOf, sumLen]
  | cons b rest ih =>
    rw [List.cons_append]
    show prevOf (base + 32 + (b.size : Int)) (some base) (rest ++ ys) = _
    rw [ih]
    have harith : base + (sumLen (b :: rest) : Int)
        = base + 32 + (b.size : Int) + (sumLen rest : Int) := by
      rw [sumLen_cons]; push_cast; ring
    rw [harith]
    rfl

theorem prevOf_concat (xs : List ABlock) (x : ABlock) (base : Int) (pa : Option Int) :
    prevOf base pa (xs ++ [x]) = some (base + (sumLen xs : Int)) := by
  rw [prevOf_append]
  rfl

theorem agrees_nil (h : Heap) (base : Int) (pa na : Option Int) :
    Agrees h base pa na [] := trivial

theorem agrees_cons (h : Heap) (base : Int) (pa na : Option Int) (b : ABlock)
    (rest : List ABlock) :
    Agrees h base pa na (b :: rest) ↔
      h.read base = ⟨b.size, b.status, nextOf (base + 32 + (b.size : Int)) na rest, pa⟩
        ∧ Agrees h (base + 32 + (b.size : Int)) (some base) na rest :=
  Iff.rfl

/-- `Agrees` only looks at addresses inside `[base, base + sumLen l)`:
heaps that coincide there are interchangeable. -/
theorem agrees_of_eqOn :
    ∀ {l : List ABlock} {base : Int} {pa na : Option Int} {h h' : Heap},
      Agrees h base pa na l →
      (∀ x : Int, base ≤ x → x < base + (sumLen l : Int) → h'.read x = h.read x) →
      Agrees h' base pa na l := by
  intro l
  induction l with
  | nil => intro _ _ _ _ _ _ _; trivial
  | cons b rest ih =>
    intro base pa na h h' hA heq
    have hlen : (sumLen (b :: rest) : Int) = 32 + (b.size : Int) + (sumLen rest : Int) := by
      rw [sumLen_cons]; push_cast; ring
    refine ⟨?_, ?_⟩
    · rw [heq base le_rfl (by omega)]
      exact hA.1
    · exact ih hA.2 (fun x hx1 hx2 => heq x (by omega) (by omega))

/-- Splitting `Agrees` across an append. -/
theorem agrees_append {h : Heap} :
    ∀ {xs ys : List ABlock} {base : Int} {pa na : Option Int},
      Agrees h base pa na (xs ++ ys) ↔
        Agrees h base pa (nextOf (base + (sumLen xs : Int)) na ys) xs ∧
        Agrees h (base + (sumLen xs : Int)) (prevOf base pa xs) na ys := by
  intro xs
  induction xs with
  | nil =>
    intro ys base pa na
    simp [Agrees, prevOf, sumLen]
  | cons b rest ih =>
    intro ys base pa na
    have hlen : base + (sumLen (b :: rest) : Int)
        = (base + 32 + (b.size : Int)) + (sumLen rest : Int) := by
      rw [sumLen_cons]; push_cast; ring
    have hnext : ∀ na' : Option Int,
        nextOf (base + 32 + (b.size : Int)) na' (rest ++ ys)
          = nextOf (base + 32 + (b.size : Int))
              (nextOf (base + (sumLen (b :: rest) : Int)) na' ys) rest := by
      intro na'
      cases rest with
      | nil =>
        cases ys with
        | nil => rfl
        | cons y ys' =>
          simp only [List.nil_append, nextOf, nextOf_nil]
          rw [hlen]; simp [sumLen, nextOf]
      | cons r rs => rfl
    have hprev : prevOf base pa (b :: rest)
        = prevOf (base + 32 + (b.size : Int)) (some base) rest := rfl
    rw [List.cons_append, agrees_cons, agrees_cons, ih]
    simp only [hnext na, hlen, hprev]
    tauto

/-! ## Chain reconstruction -/

/-- On a heap agreeing with the layout of `l`, the pointer walk of
`chainFrom` succeeds and produces exactly that layout. -/
theorem chainFrom_of_agrees :
    ∀ {l : List ABlock} {base : Int} {pa : Option Int} {h : Heap} {fuel : Nat},
      Agrees h base pa none l → l.length < fuel →
      chainFrom h (startOf base l) fuel = some (layoutTo base pa none l) := by
  intro l
  induction l with
  | nil =>
    intro base pa h fuel _ _
    cases fuel <;> rfl
  | cons b rest ih =>
    intro base pa h fuel hA hfuel
    cases fuel with
    | zero => omega
    | succ f =>
      have hread := hA.1
      have hrec := ih hA.2 (by simpa using Nat.lt_of_succ_lt_succ hfuel)
      show chainFrom h (some base) (f + 1) = _
      rw [chainFrom, hread]
      have : nextOf (base + 32 + (b.size : Int)) none rest
          = startOf (base + 32 + (b.size : Int)) rest := rfl
      rw [this, hrec]
      rfl

/-- The chain of a state satisfying the invariant is exactly the layout of
its abstract block list. -/
theorem theChain_of_models {st : AllocState} {l : List ABlock} (hm : Models st l) :
    theChain st = some (layoutTo 0 none none l) := by
  obtain ⟨_, hfb, hne, hsum, hA⟩ := hm
  have hlen : l.length < FUEL := by
    have := length_le_sumLen l
    rw [hsum] at this
    simp only [POOL_SIZE] at this
    simp only [FUEL]
    omega
  have := chainFrom_of_agrees hA hlen
  rw [theChain, hfb]
  rwa [startOf, nextOf_ne_nil _ _ hne] at this

/-! ## Simulation of `My_Malloc` -/

theorem aMallocGo_ne_nil {s : Nat} :
    ∀ {l : List ABlock} {base : Int} {l' : List ABlock} {r : Int},
      aMallocGo s base l = some (l', r) → l' ≠ [] := by
  intro l
  induction l with
  | nil => intro base l' r h; simp [aMallocGo] at h
  | cons b rest ih =>
    intro base l' r h
    rw [aMallocGo] at h
    split at h
    · split at h
      · simp only [Option.some.injEq, Prod.mk.injEq] at h
        rw [← h.1]
        simp
      · simp only [Option.some.injEq, Prod.mk.injEq] at h
        rw [← h.1]
        simp
    · split at h
      · exact absurd h (by simp)
      · simp only [Option.some.injEq, Prod.mk.injEq] at h
        rw [← h.1]
        simp

theorem Heap.read_setSize_self (h : Heap) (a : Int) (n : Nat) :
    (h.setSize a n).read a = { h.read a with size := n } := by
  simp [Heap.setSize, Heap.read_write]

theorem Heap.read_setSize_of_ne {a x : Int} (hne : a ≠ x) (h : Heap) (n : Nat) :
    (h.setSize a n).read x = h.read x := by
  simp [Heap.setSize, Heap.read_write, hne]

theorem Heap.read_setStatus_self (h : Heap) (a : Int) (s : BlockStatus) :
    (h.setStatus a s).read a = { h.read a with status := s } := by
  simp [Heap.setStatus, Heap.read_write]

theorem Heap.read_setStatus_of_ne {a x : Int} (hne : a ≠ x) (h : Heap) (s : BlockStatus) :
    (h.setStatus a s).read x = h.read x := by
  simp [Heap.setStatus, Heap.read_write, hne]

theorem Heap.read_setNext_self (h : Heap) (a : Int) (n : Option Int) :
    (h.setNext a n).read a = { h.read a with next := n } := by
  simp [Heap.setNext, Heap.read_write]

theorem Heap.read_setNext_of_ne {a x : Int} (hne : a ≠ x) (h : Heap) (n : Option Int) :
    (h.setNext a n).read x = h.read x := by
  simp [Heap.setNext, Heap.read_write, hne]

theorem Heap.read_setPrev_self (h : Heap) (a : Int) (p : Option Int) :
    (h.setPrev a p).read a = { h.read a with prev := p } := by
  simp [Heap.setPrev, Heap.read_write]

theorem Heap.read_setPrev_of_ne {a x : Int} (hne : a ≠ x) (h : Heap) (p : Option Int) :
    (h.setPrev a p).read x = h.read x := by
  simp [Heap.setPrev, Heap.read_write, hne]

theorem mallocLoop_sim {s : Nat} :
    ∀ (l : List ABlock) (base : Int) (pa : Option Int) (h : Heap) (fuel : Nat),
      Agrees h base pa none l → l.length < fuel →
      (aMallocGo s base l = none → mallocLoop h s (startOf base l) fuel = (h, none)) ∧
      (∀ l' r, aMallocGo s base l = some (l', r) →
        ∃ h', mallocLoop h s (startOf base l) fuel = (h', some r)
          ∧ Agrees h' base pa none l'
          ∧ ∀ x : Int, x < base → h'.read x = h.read x) := by
  intro l
  induction l with
  | nil =>
    intro base pa h fuel _ _
    constructor
    · intro _
      cases fuel <;> rfl
    · intro l' r hcontra
      simp [aMallocGo] at hcontra
  | cons b rest ih =>
    intro base pa h fuel hA hfuel
    cases fuel with
    | zero => simp at hfuel
    | succ f =>
      have hread := hA.1
      have htail := hA.2
      by_cases hfit : b.status = BlockStatus.FREE ∧ s ≤ b.size
      · by_cases hsplit : s + 32 + 32 ≤ b.size
        · -- fit, split
          constructor
          · intro hcontra
            rw [aMallocGo, if_pos hfit, if_pos hsplit] at hcontra
            exact absurd hcontra (by simp)
          · intro l' r heq
            rw [aMallocGo, if_pos hfit, if_pos hsplit] at heq
            simp only [Option.some.injEq, Prod.mk.injEq] at heq
            obtain ⟨hl', hr⟩ := heq
            subst hl'
            subst hr
            have hne1 : base ≠ base + 32 + (s : Int) := by omega
            have hne1' : base + 32 + (s : Int) ≠ base := by omega
            cases rest with
            | nil =>
              simp only [nextOf_nil] at hread
              refine ⟨((((((h.setSize (base + 32 + (s : Int)) (b.size - s - 32)).setStatus
                  (base + 32 + (s : Int)) BlockStatus.FREE).setNext
                  (base + 32 + (s : Int)) none).setPrev
                  (base + 32 + (s : Int)) (some base)).setSize base s).setNext base
                  (some (base + 32 + (s : Int)))).setStatus base BlockStatus.ALLOCATED,
                ?_, ?_, ?_⟩
              · show mallocLoop h s (some base) (f + 1) = _
                rw [mallocLoop]
                simp only [hread]
                rw [if_pos hfit, if_pos hsplit]
                split
                · rfl
                · rename_i nn hM
                  simp only [Heap.read_setNext_self, Heap.read_setNext_of_ne hne1,
                    Heap.read_setPrev_self, Heap.read_setPrev_of_ne hne1,
                    Heap.read_setSize_self, Heap.read_setSize_of_ne hne1,
                    Heap.read_setStatus_self, Heap.read_setStatus_of_ne hne1] at hM
                  exact absurd hM (by simp)
              · refine ⟨?_, ?_, trivial⟩
                · simp only [Heap.read_setStatus_self, Heap.read_setStatus_of_ne hne1',
                    Heap.read_setNext_self, Heap.read_setNext_of_ne hne1',
                    Heap.read_setSize_self, Heap.read_setSize_of_ne hne1',
                    Heap.read_setPrev_self, Heap.read_setPrev_of_ne hne1', hread,
                    nextOf_cons]
                · simp only [Heap.read_setStatus_of_ne hne1, Heap.read_setNext_of_ne hne1,
                    Heap.read_setSize_of_ne hne1, Heap.read_setPrev_self,
                    Heap.read_setNext_self, Heap.read_setStatus_self,
                    Heap.read_setSize_self, nextOf_nil]
              · intro x hx
                have d1 : base ≠ x := by omega
                have d2 : base + 32 + (s : Int) ≠ x := by omega
                simp only [Heap.read_setStatus_of_ne d1, Heap.read_setNext_of_ne d1,
                  Heap.read_setSize_of_ne d1, Heap.read_setPrev_of_ne d2,
                  Heap.read_setNext_of_ne d2, Heap.read_setStatus_of_ne d2,
                  Heap.read_setSize_of_ne d2]
            | cons r1 rs =>
              simp only [nextOf_cons] at hread
              obtain ⟨hr1, htail2⟩ := htail
              have hne2 : base ≠ base + 32 + (b.size : Int) := by omega
              have hne2' : base + 32 + (b.size : Int) ≠ base := by omega
              have hne3 : base + 32 + (s : Int) ≠ base + 32 + (b.size : Int) := by omega
              have hne3' : base + 32 + (b.size : Int) ≠ base + 32 + (s : Int) := by omega
              have haddr : base + 32 + (s : Int) + 32 + ((b.size - s - 32 : Nat) : Int)
                  = base + 32 + (b.size : Int) := by omega
              refine ⟨(((((((h.setSize (base + 32 + (s : Int)) (b.size - s - 32)).setStatus
                  (base + 32 + (s : Int)) BlockStatus.FREE).setNext
                  (base + 32 + (s : Int)) (some (base + 32 + (b.size : Int)))).setPrev
                  (base + 32 + (s : Int)) (some base)).setSize base s).setNext base
                  (some (base + 32 + (s : Int)))).setPrev (base + 32 + (b.size : Int))
                  (some (base + 32 + (s : Int)))).setStatus base BlockStatus.ALLOCATED,
                ?_, ?_, ?_⟩
              · show mallocLoop h s (some base) (f + 1) = _
                rw [mallocLoop]
                simp only [hread]
                rw [if_pos hfit, if_pos hsplit]
                split
                · rename_i hM
                  simp only [Heap.read_setNext_self, Heap.read_setNext_of_ne hne1,
                    Heap.read_setPrev_self, Heap.read_setPrev_of_ne hne1,
                    Heap.read_setSize_self, Heap.read_setSize_of_ne hne1,
                    Heap.read_setStatus_self, Heap.read_setStatus_of_ne hne1] at hM
                  exact absurd hM (by simp)
                · rename_i nn hM
                  simp only [Heap.read_setNext_self, Heap.read_setNext_of_ne hne1,
                    Heap.read_setPrev_self, Heap.read_setPrev_of_ne hne1,
                    Heap.read_setSize_self, Heap.read_setSize_of_ne hne1,
                    Heap.read_setStatus_self, Heap.read_setStatus_of_ne hne1,
                    Option.some.injEq] at hM
                  subst hM
                  rfl
              · refine ⟨?_, ?_, ?_, ?_⟩
                · simp only [Heap.read_setStatus_self, Heap.read_setStatus_of_ne hne1',
                    Heap.read_setStatus_of_ne hne2', Heap.read_setNext_self,
                    Heap.read_setNext_of_ne hne1', Heap.read_setNext_of_ne hne2',
                    Heap.read_setSize_self, Heap.read_setSize_of_ne hne1',
                    Heap.read_setSize_of_ne hne2', Heap.read_setPrev_self,
                    Heap.read_setPrev_of_ne hne1', Heap.read_setPrev_of_ne hne2',
                    hread, nextOf_cons]
                · simp only [Heap.read_setStatus_of_ne hne1, Heap.read_setNext_of_ne hne1,
                    Heap.read_setSize_of_ne hne1, Heap.read_setPrev_of_ne hne3',
                    Heap.read_setPrev_self, Heap.read_setNext_self,
                    Heap.read_setStatus_self, Heap.read_setSize_self, nextOf_cons, haddr]
                · simp only [haddr]
                  simp only [Heap.read_setStatus_of_ne hne2, Heap.read_setPrev_self,
                    Heap.read_setNext_of_ne hne2, Heap.read_setSize_of_ne hne2,
                    Heap.read_setPrev_of_ne hne3, Heap.read_setNext_of_ne hne3,
                    Heap.read_setStatus_of_ne hne3, Heap.read_setSize_of_ne hne3, hr1]
                · show Agrees _
                    (base + 32 + (s : Int) + 32 + ((b.size - s - 32 : Nat) : Int)
                      + 32 + (r1.size : Int))
                    (some (base + 32 + (s : Int) + 32 + ((b.size - s - 32 : Nat) : Int)))
                    none rs
                  have htail2' : Agrees h
                      (base + 32 + (s : Int) + 32 + ((b.size - s - 32 : Nat) : Int)
                        + 32 + (r1.size : Int))
                      (some (base + 32 + (s : Int) + 32 + ((b.size - s - 32 : Nat) : Int)))
                      none rs := by
                    rw [haddr]
                    exact htail2
                  refine agrees_of_eqOn htail2' ?_
                  intro x hx1 hx2
                  have d1 : base ≠ x := by omega
                  have d2 : base + 32 + (s : Int) ≠ x := by omega
                  have d3 : base + 32 + (b.size : Int) ≠ x := by omega
                  simp only [Heap.read_setStatus_of_ne d1, Heap.read_setNext_of_ne d1,
                    Heap.read_setSize_of_ne d1, Heap.read_setPrev_of_ne d2,
                    Heap.read_setPrev_of_ne d3, Heap.read_setNext_of_ne d2,
                    Heap.read_setStatus_of_ne d2, Heap.read_setSize_of_ne d2]
              · intro x hx
                have d1 : base ≠ x := by omega
                have d2 : base + 32 + (s : Int) ≠ x := by omega
                have d3 : base + 32 + (b.size : Int) ≠ x := by omega
                simp only [Heap.read_setStatus_of_ne d1, Heap.read_setNext_of_ne d1,
                  Heap.read_setSize_of_ne d1, Heap.read_setPrev_of_ne d2,
                  Heap.read_setPrev_of_ne d3, Heap.read_setNext_of_ne d2,
                  Heap.read_setStatus_of_ne d2, Heap.read_setSize_of_ne d2]
        · -- fit, no split
          constructor
          · intro hcontra
            rw [aMallocGo, if_pos hfit, if_neg hsplit] at hcontra
            exact absurd hcontra (by simp)
          · intro l' r heq
            rw [aMallocGo, if_pos hfit, if_neg hsplit] at heq
            simp only [Option.some.injEq, Prod.mk.injEq] at heq
            obtain ⟨hl', hr⟩ := heq
            subst hl'
            subst hr
            refine ⟨h.setStatus base BlockStatus.ALLOCATED, ?_, ?_, ?_⟩
            · show mallocLoop h s (some base) (f + 1) = _
              rw [mallocLoop]
              simp only [hread]
              rw [if_pos hfit, if_neg hsplit]
            · refine ⟨?_, ?_⟩
              · simp only [Heap.read_setStatus_self, hread]
              · refine agrees_of_eqOn htail ?_
                intro x hx1 hx2
                have d1 : base ≠ x := by omega
                simp only [Heap.read_setStatus_of_ne d1]
            · intro x hx
              have d1 : base ≠ x := by omega
              simp only [Heap.read_setStatus_of_ne d1]
      · -- no fit
        have hloop : mallocLoop h s (some base) (f + 1)
            = mallocLoop h s (nextOf (base + 32 + (b.size : Int)) none rest) f := by
          rw [mallocLoop]
          simp only [hread]
          rw [if_neg hfit]
        have hrest : rest.length < f := by
          simp only [List.length_cons] at hfuel
          omega
        have IH := ih (base + 32 + (b.size : Int)) (some base) h f htail hrest
        constructor
        · intro hnone
          rw [aMallocGo, if_neg hfit] at hnone
          show mallocLoop h s (some base) (f + 1) = (h, none)
          rw [hloop]
          cases hrec : aMallocGo s (base + 32 + (b.size : Int)) rest with
          | none => exact IH.1 hrec
          | some v =>
            rw [hrec] at hnone
            exact absurd hnone (by simp)
        · intro l' r heq
          rw [aMallocGo, if_neg hfit] at heq
          cases hrec : aMallocGo s (base + 32 + (b.size : Int)) rest with
          | none =>
            rw [hrec] at heq
            exact absurd heq (by simp)
          | some v =>
            obtain ⟨l₂, r₂⟩ := v
            rw [hrec] at heq
            simp only [Option.some.injEq, Prod.mk.injEq] at heq
            obtain ⟨hl', hr⟩ := heq
            subst hl'
            subst hr
            obtain ⟨h', hloop2, hag, hpres⟩ := IH.2 l₂ r₂ hrec
            have hrestne : rest ≠ [] := by
              rintro rfl
              simp [aMallocGo] at hrec
            have hl2ne : l₂ ≠ [] := aMallocGo_ne_nil hrec
            refine ⟨h', ?_, ?_, ?_⟩
            · show mallocLoop h s (some base) (f + 1) = _
              rw [hloop]
              exact hloop2
            · refine ⟨?_, hag⟩
              rw [hpres base (by omega), hread, nextOf_ne_nil _ _ hrestne,
                nextOf_ne_nil _ _ hl2ne]
            · intro x hx
              exact hpres x (by omega)

/-! ## Simulation of `My_Free` -/

/-- Marking the block at the head of `b :: l₂` FREE only changes that
block's status in the layout. -/
theorem markFree_phase {h : Heap} {l₁ : List ABlock} {b : ABlock} {l₂ : List ABlock}
    {base : Int} {pa : Option Int}
    (hA : Agrees h base pa none (l₁ ++ b :: l₂)) :
    Agrees (h.setStatus (base + (sumLen l₁ : Int)) BlockStatus.FREE) base pa none
      (l₁ ++ (⟨b.size, BlockStatus.FREE⟩ : ABlock) :: l₂) := by
  rw [agrees_append] at hA ⊢
  have A1 := hA.1
  have hb := hA.2.1
  have A3 := hA.2.2
  refine ⟨?_, ?_, ?_⟩
  · refine agrees_of_eqOn A1 ?_
    intro x hx1 hx2
    have d1 : base + (sumLen l₁ : Int) ≠ x := by omega
    rw [Heap.read_setStatus_of_ne d1]
  · rw [Heap.read_setStatus_self, hb]
  · refine agrees_of_eqOn A3 ?_
    intro x hx1 hx2
    have d1 : base + (sumLen l₁ : Int) ≠ x := by omega
    rw [Heap.read_setStatus_of_ne d1]

/-- Forward coalescing acts on the layout as `fwdMerge`. -/
theorem fwd_phase {h : Heap} {l₁ : List ABlock} {b : ABlock} {l₂ : List ABlock}
    {base : Int} {pa : Option Int}
    (hA : Agrees h base pa none (l₁ ++ b :: l₂))
    (hbound : sumLen (l₁ ++ b :: l₂) < SIZE_MOD) :
    Agrees (fwdCoalesce h (base + (sumLen l₁ : Int))) base pa none
      (l₁ ++ (fwdMerge b l₂).1 :: (fwdMerge b l₂).2) := by
  rw [agrees_append] at hA
  have A1 := hA.1
  have hb := hA.2.1
  have A3 := hA.2.2
  cases l₂ with
  | nil =>
    rw [fwdCoalesce, hb]
    show Agrees h base pa none (l₁ ++ (fwdMerge b []).1 :: (fwdMerge b []).2)
    rw [fwdMerge]
    rw [agrees_append]
    exact ⟨A1, hb, A3⟩
  | cons b2 rest =>
    have hb2 := A3.1
    have A4 := A3.2
    by_cases hF : b2.status = BlockStatus.FREE
    · -- forward merge happens
      have hmod : (b.size + 32 + b2.size) % SIZE_MOD = b.size + 32 + b2.size := by
        apply Nat.mod_eq_of_lt
        rw [sumLen_append, sumLen_cons, sumLen_cons] at hbound
        omega
      have hne1 : base + (sumLen l₁ : Int)
          ≠ base + (sumLen l₁ : Int) + 32 + (b.size : Int) := by omega
      have hne1' : base + (sumLen l₁ : Int) + 32 + (b.size : Int)
          ≠ base + (sumLen l₁ : Int) := by omega
      cases rest with
      | nil =>
        -- merged block becomes the last block
        simp only [fwdCoalesce, hb, nextOf_cons, hb2, hmod]
        rw [if_pos hF]
        simp only [Heap.read_setNext_of_ne hne1, Heap.read_setSize_of_ne hne1, hb2,
          nextOf_nil]
        rw [fwdMerge, if_pos hF]
        rw [agrees_append]
        refine ⟨?_, ?_, trivial⟩
        · refine agrees_of_eqOn A1 ?_
          intro x hx1 hx2
          have d1 : base + (sumLen l₁ : Int) ≠ x := by omega
          rw [Heap.read_setNext_of_ne d1, Heap.read_setSize_of_ne d1]
        · simp only [Heap.read_setNext_self, Heap.read_setSize_self, hb, nextOf_nil]
      | cons r rs =>
        have hr := A4.1
        have A5 := A4.2
        have haddr : base + (sumLen l₁ : Int) + 32 + ((b.size + 32 + b2.size : Nat) : Int)
            = base + (sumLen l₁ : Int) + 32 + (b.size : Int) + 32 + (b2.size : Int) := by
          push_cast; ring
        have hne2 : base + (sumLen l₁ : Int)
            ≠ base + (sumLen l₁ : Int) + 32 + (b.size : Int) + 32 + (b2.size : Int) := by
          omega
        have hne2' : base + (sumLen l₁ : Int) + 32 + (b.size : Int) + 32 + (b2.size : Int)
            ≠ base + (sumLen l₁ : Int) := by omega
        simp only [fwdCoalesce, hb, nextOf_cons, hb2, hmod]
        rw [if_pos hF]
        simp only [Heap.read_setNext_of_ne hne1, Heap.read_setSize_of_ne hne1, hb2,
          nextOf_cons]
        rw [fwdMerge, if_pos hF]
        rw [agrees_append]
        refine ⟨?_, ?_, ?_, ?_⟩
        · refine agrees_of_eqOn A1 ?_
          intro x hx1 hx2
          have d1 : base + (sumLen l₁ : Int) ≠ x := by omega
          have d2 : base + (sumLen l₁ : Int) + 32 + (b.size : Int) + 32 + (b2.size : Int)
              ≠ x := by omega
          rw [Heap.read_setPrev_of_ne d2, Heap.read_setNext_of_ne d1,
            Heap.read_setSize_of_ne d1]
        · simp only [haddr, Heap.read_setPrev_of_ne hne2', Heap.read_setNext_self,
            Heap.read_setSize_self, hb, nextOf_cons]
        · simp only [haddr, Heap.read_setPrev_self, Heap.read_setNext_of_ne hne2,
            Heap.read_setSize_of_ne hne2, hr]
        · show Agrees _
            (base + (sumLen l₁ : Int) + 32 + ((b.size + 32 + b2.size : Nat) : Int)
              + 32 + (r.size : Int))
            (some (base + (sumLen l₁ : Int) + 32 + ((b.size + 32 + b2.size : Nat) : Int)))
            none rs
          rw [haddr]
          refine agrees_of_eqOn A5 ?_
          intro x hx1 hx2
          have d1 : base + (sumLen l₁ : Int) ≠ x := by omega
          have d2 : base + (sumLen l₁ : Int) + 32 + (b.size : Int) + 32 + (b2.size : Int)
              ≠ x := by omega
          rw [Heap.read_setPrev_of_ne d2, Heap.read_setNext_of_ne d1,
            Heap.read_setSize_of_ne d1]
    · -- successor not FREE: no change
      rw [fwdCoalesce, hb]
      show Agrees (if (h.read (base + (sumLen l₁ : Int) + 32 + (b.size : Int))).status
          = BlockStatus.FREE then _ else h) base pa none _
      rw [hb2, if_neg hF]
      rw [fwdMerge, if_neg hF]
      rw [agrees_append]
      exact ⟨A1, hb, A3⟩

/-- Backward coalescing acts on the layout as `bwdMerge` (the traversal
starts at the chain head, so the incoming `prev` pointer is `none`). -/
theorem bwd_phase {h : Heap} {l₁ : List ABlock} {b : ABlock} {l₂ : List ABlock}
    {base : Int}
    (hA : Agrees h base none none (l₁ ++ b :: l₂))
    (hbound : sumLen (l₁ ++ b :: l₂) < SIZE_MOD) :
    Agrees (bwdCoalesce h (base + (sumLen l₁ : Int))) base none none
      (bwdMerge l₁ b l₂) := by
  rcases l₁.eq_nil_or_concat' with rfl | ⟨l₁', pb, rfl⟩
  · -- first block: no predecessor
    simp only [List.nil_append] at hA
    have hb := hA.1
    simp only [sumLen_nil, Nat.cast_zero, add_zero, bwdCoalesce, hb]
    rw [bwdMerge]
    simp only [List.getLast?_nil]
    exact hA
  · -- predecessor exists
    have hl1 : (l₁' ++ [pb]) ++ b :: l₂ = l₁' ++ pb :: b :: l₂ := by
      rw [List.append_assoc, List.singleton_append]
    rw [hl1] at hA
    rw [agrees_append] at hA
    have A1 := hA.1
    have hpb := hA.2.1
    have hb := hA.2.2.1
    have A3 := hA.2.2.2
    have haddr0 : base + (sumLen (l₁' ++ [pb]) : Int)
        = base + (sumLen l₁' : Int) + 32 + (pb.size : Int) := by
      rw [sumLen_append, sumLen_cons, sumLen_nil]
      push_cast
      ring
    have hprevOf : prevOf base none (l₁' ++ [pb]) = some (base + (sumLen l₁' : Int)) :=
      prevOf_concat _ _ _ _
    rw [bwdMerge, List.getLast?_concat, List.dropLast_concat]
    simp only [haddr0, bwdCoalesce, hb, hprevOf]
    by_cases hPF : pb.status = BlockStatus.FREE
    · have hmod : (pb.size + 32 + b.size) % SIZE_MOD = pb.size + 32 + b.size := by
        apply Nat.mod_eq_of_lt
        rw [hl1, sumLen_append, sumLen_cons, sumLen_cons] at hbound
        omega
      have hne1 : base + (sumLen l₁' : Int)
          ≠ base + (sumLen l₁' : Int) + 32 + (pb.size : Int) := by omega
      have hne1' : base + (sumLen l₁' : Int) + 32 + (pb.size : Int)
          ≠ base + (sumLen l₁' : Int) := by omega
      rw [if_pos hPF, hpb]
      simp only [hmod]
      rw [if_pos hPF]
      simp only [Heap.read_setNext_of_ne hne1, Heap.read_setSize_of_ne hne1, hb,
        nextOf_cons]
      cases l₂ with
      | nil =>
        simp only [nextOf_nil]
        rw [agrees_append]
        refine ⟨?_, ?_, trivial⟩
        · refine agrees_of_eqOn A1 ?_
          intro x hx1 hx2
          have d1 : base + (sumLen l₁' : Int) ≠ x := by omega
          rw [Heap.read_setNext_of_ne d1, Heap.read_setSize_of_ne d1]
        · simp only [Heap.read_setNext_self, Heap.read_setSize_self, hpb, nextOf_nil, hPF]
      | cons c cs =>
        have hc := A3.1
        have A4 := A3.2
        simp only [nextOf_cons]
        have haddr2 : base + (sumLen l₁' : Int) + 32 + ((pb.size + 32 + b.size : Nat) : Int)
            = base + (sumLen l₁' : Int) + 32 + (pb.size : Int) + 32 + (b.size : Int) := by
          push_cast
          ring
        have hne2 : base + (sumLen l₁' : Int)
            ≠ base + (sumLen l₁' : Int) + 32 + (pb.size : Int) + 32 + (b.size : Int) := by
          omega
        have hne2' : base + (sumLen l₁' : Int) + 32 + (pb.size : Int) + 32 + (b.size : Int)
            ≠ base + (sumLen l₁' : Int) := by omega
        rw [agrees_append]
        refine ⟨?_, ?_, ?_, ?_⟩
        · refine agrees_of_eqOn A1 ?_
          intro x hx1 hx2
          have d1 : base + (sumLen l₁' : Int) ≠ x := by omega
          have d2 : base + (sumLen l₁' : Int) + 32 + (pb.size : Int) + 32 + (b.size : Int)
              ≠ x := by omega
          rw [Heap.read_setPrev_of_ne d2, Heap.read_setNext_of_ne d1,
            Heap.read_setSize_of_ne d1]
        · simp only [haddr2, Heap.read_setPrev_of_ne hne2', Heap.read_setNext_self,
            Heap.read_setSize_self, hpb, nextOf_cons, hPF]
        · simp only [haddr2, Heap.read_setPrev_self, Heap.read_setNext_of_ne hne2,
            Heap.read_setSize_of_ne hne2, hc]
        · show Agrees _
            (base + (sumLen l₁' : Int) + 32 + ((pb.size + 32 + b.size : Nat) : Int)
              + 32 + (c.size : Int))
            (some (base + (sumLen l₁' : Int) + 32 + ((pb.size + 32 + b.size : Nat) : Int)))
            none cs
          rw [haddr2]
          refine agrees_of_eqOn A4 ?_
          intro x hx1 hx2
          have d1 : base + (sumLen l₁' : Int) ≠ x := by omega
          have d2 : base + (sumLen l₁' : Int) + 32 + (pb.size : Int) + 32 + (b.size : Int)
              ≠ x := by omega
          rw [Heap.read_setPrev_of_ne d2, Heap.read_setNext_of_ne d1,
            Heap.read_setSize_of_ne d1]
    · simp only [hpb]
      rw [if_neg hPF, if_neg hPF]
      rw [hl1, agrees_append]
      exact hA

theorem sumLen_fwdMerge (b : ABlock) (l₂ : List ABlock) :
    sumLen ((fwdMerge b l₂).1 :: (fwdMerge b l₂).2) = sumLen (b :: l₂) := by
  cases l₂ with
  | nil => rfl
  | cons b2 rest =>
    rw [fwdMerge]
    by_cases hF : b2.status = BlockStatus.FREE
    · rw [if_pos hF]
      simp only [sumLen_cons]
      omega
    · rw [if_neg hF]

theorem bwdMerge_nil (b : ABlock) (l₂ : List ABlock) : bwdMerge [] b l₂ = b :: l₂ := rfl

theorem bwdMerge_concat (l₁' : List ABlock) (pb b : ABlock) (l₂ : List ABlock) :
    bwdMerge (l₁' ++ [pb]) b l₂
      = if pb.status = BlockStatus.FREE
        then l₁' ++ (⟨pb.size + 32 + b.size, BlockStatus.FREE⟩ : ABlock) :: l₂
        else (l₁' ++ [pb]) ++ b :: l₂ := by
  rw [bwdMerge, List.getLast?_concat, List.dropLast_concat]

theorem sumLen_bwdMerge (l₁ : List ABlock) (b : ABlock) (l₂ : List ABlock) :
    sumLen (bwdMerge l₁ b l₂) = sumLen (l₁ ++ b :: l₂) := by
  rcases l₁.eq_nil_or_concat' with rfl | ⟨l₁', pb, rfl⟩
  · rw [bwdMerge_nil]
    simp
  · rw [bwdMerge_concat]
    by_cases hF : pb.status = BlockStatus.FREE
    · rw [if_pos hF]
      simp only [sumLen_append, sumLen_cons, sumLen_nil]
      omega
    · rw [if_neg hF]

theorem sumLen_freeResult (l₁ : List ABlock) (b : ABlock) (l₂ : List ABlock) :
    sumLen (freeResult l₁ b l₂) = sumLen (l₁ ++ b :: l₂) := by
  rw [freeResult, sumLen_bwdMerge, sumLen_append, sumLen_append, sumLen_fwdMerge,
    sumLen_cons, sumLen_cons]

theorem freeResult_ne_nil (l₁ : List ABlock) (b : ABlock) (l₂ : List ABlock) :
    freeResult l₁ b l₂ ≠ [] := by
  rw [freeResult]
  rcases l₁.eq_nil_or_concat' with rfl | ⟨l₁', pb, rfl⟩
  · rw [bwdMerge_nil]
    simp
  · rw [bwdMerge_concat]
    by_cases hF : pb.status = BlockStatus.FREE
    · rw [if_pos hF]
      simp
    · rw [if_neg hF]
      simp

/-- `My_Free` on a genuine handle of the chain: the call reduces to
mark-free, forward coalesce, backward coalesce, and the resulting state
satisfies the invariant with abstract chain `freeResult l₁ b l₂`. -/
theorem free_sim {st : AllocState} {l₁ : List ABlock} {b : ABlock} {l₂ : List ABlock}
    (hm : Models st (l₁ ++ b :: l₂)) :
    My_Free st (some ((sumLen l₁ : Int) + 32))
      = { st with heap := freeHeap st.heap (sumLen l₁ : Int) }
    ∧ Models { st with heap := freeHeap st.heap (sumLen l₁ : Int) }
        (freeResult l₁ b l₂) := by
  obtain ⟨hinit, hfb, hne, hsum, hA⟩ := hm
  have hsum' : sumLen l₁ + 32 + b.size + sumLen l₂ = POOL_SIZE := by
    rw [← hsum, sumLen_append, sumLen_cons]
    omega
  have hPS : POOL_SIZE = 10240 := by norm_num [POOL_SIZE]
  have hSM : SIZE_MOD = 2 ^ 64 := rfl
  have hbound : sumLen (l₁ ++ b :: l₂) < SIZE_MOD := by
    rw [hsum, hPS, hSM]
    norm_num
  have hcond : ¬((sumLen l₁ : Int) < 0 ∨ ((POOL_SIZE : Nat) : Int) ≤ (sumLen l₁ : Int)) := by
    rw [hPS] at hsum' ⊢
    omega
  constructor
  · rw [My_Free]
    have hp : ((sumLen l₁ : Int) + 32) - 32 = (sumLen l₁ : Int) := by ring
    simp only [hp]
    rw [if_neg hcond]
  · refine ⟨hinit, hfb, freeResult_ne_nil _ _ _, ?_, ?_⟩
    · rw [sumLen_freeResult, hsum]
    · have h0A := @markFree_phase _ _ _ _ 0 none hA
      rw [zero_add] at h0A
      have hsz1 : sumLen (l₁ ++ (⟨b.size, BlockStatus.FREE⟩ : ABlock) :: l₂)
          < SIZE_MOD := by
        simp only [sumLen_append, sumLen_cons] at hbound ⊢
        omega
      have h1A := @fwd_phase _ _ _ _ 0 none h0A hsz1
      rw [zero_add] at h1A
      have hsz2 : sumLen (l₁ ++ (fwdMerge ⟨b.size, BlockStatus.FREE⟩ l₂).1
          :: (fwdMerge ⟨b.size, BlockStatus.FREE⟩ l₂).2) < SIZE_MOD := by
        rw [sumLen_append, sumLen_fwdMerge]
        simp only [sumLen_append, sumLen_cons] at hbound
        simp only [sumLen_cons]
        omega
      have h2A := @bwd_phase _ _ _ _ 0 h1A hsz2
      rw [zero_add] at h2A
      exact h2A

/-! ## State-level lemmas -/

theorem aMallocGo_sumLen {s : Nat} :
    ∀ {l : List ABlock} {base : Int} {l' : List ABlock} {r : Int},
      aMallocGo s base l = some (l', r) → sumLen l' = sumLen l := by
  intro l
  induction l with
  | nil =>
    intro base l' r h
    simp [aMallocGo] at h
  | cons b rest ih =>
    intro base l' r h
    rw [aMallocGo] at h
    split at h
    · rename_i hfit
      split at h
      · rename_i hsplit
        simp only [Option.some.injEq, Prod.mk.injEq] at h
        rw [← h.1]
        simp only [sumLen_cons]
        omega
      · simp only [Option.some.injEq, Prod.mk.injEq] at h
        rw [← h.1]
        simp only [sumLen_cons]
    · split at h
      · exact absurd h (by simp)
      · rename_i l₂r heq
        simp only [Option.some.injEq, Prod.mk.injEq] at h
        rw [← h.1]
        simp only [sumLen_cons, ih heq]

/-- The single all-arena FREE block of the freshly initialized allocator. -/
theorem models_readyState :
    Models readyState [⟨POOL_SIZE - 32, BlockStatus.FREE⟩] := by
  refine ⟨rfl, rfl, by simp, by decide, ?_, trivial⟩
  rfl

/-- State-level characterization of `My_Malloc` on an invariant-satisfying
state: zero rounded size and out-of-memory leave the state untouched and
return `NULL`; success transforms the abstract chain by `aMallocGo`. -/
theorem malloc_sim {st : AllocState} {l : List ABlock} (hm : Models st l) (s : Nat) :
    (roundUp s = 0 → My_Malloc st s = (st, none)) ∧
    (roundUp s ≠ 0 →
      (aMallocGo (roundUp s) 0 l = none → My_Malloc st s = (st, none)) ∧
      (∀ l' r, aMallocGo (roundUp s) 0 l = some (l', r) →
        ∃ h', My_Malloc st s = ({ st with heap := h' }, some r)
          ∧ Models { st with heap := h' } l')) := by
  obtain ⟨hinit, hfb, hne, hsum, hA⟩ := hm
  have hlen : l.length < FUEL := by
    have := length_le_sumLen l
    rw [hsum] at this
    have hPS : POOL_SIZE = 10240 := by norm_num [POOL_SIZE]
    rw [hPS] at this
    simp only [FUEL]
    omega
  have hstart : startOf 0 l = some 0 := nextOf_ne_nil _ _ hne
  have SIM := @mallocLoop_sim (roundUp s) l 0 none st.heap FUEL hA hlen
  rw [hstart] at SIM
  constructor
  · intro h0
    rw [My_Malloc]
    simp only [hinit]
    rw [if_pos trivial, if_pos h0]
  · intro hne0
    constructor
    · intro hnone
      rw [My_Malloc]
      simp only [hinit]
      rw [if_pos trivial, if_neg hne0, hfb]
      rw [SIM.1 hnone, ← hfb]
    · intro l' r hsome
      obtain ⟨h', hloop, hag, _⟩ := SIM.2 l' r hsome
      refine ⟨h', ?_, hinit, hfb, aMallocGo_ne_nil hsome, ?_, hag⟩
      · rw [My_Malloc]
        simp only [hinit]
        rw [if_pos trivial, if_neg hne0, hfb, hloop, ← hfb, hinit]
      · rw [aMallocGo_sumLen hsome, hsum]

/-! ## Claim theorems -/

/-- C7: `Memory_Init` is idempotent: the first call (uninitialized state)
establishes exactly one FREE block at the pool base with
`size = POOL_SIZE - header_size`, `next = none`, `prev = none`, and marks
the allocator initialized; every call on an initialized state is a no-op,
so calling init twice equals calling it once, unconditionally (no error
conditions). -/
theorem c7_init_idempotent :
    (∀ st : AllocState, st.isInitialized = false →
      (Memory_Init st).heap.read 0
          = ⟨POOL_SIZE - headerSize, BlockStatus.FREE, none, none⟩
        ∧ (Memory_Init st).firstBlock = some 0
        ∧ (Memory_Init st).isInitialized = true) ∧
    (∀ st : AllocState, st.isInitialized = true → Memory_Init st = st) ∧
    (∀ st : AllocState, Memory_Init (Memory_Init st) = Memory_Init st) := by
  have hnoop : ∀ st : AllocState, st.isInitialized = true → Memory_Init st = st := by
    intro st h
    rw [Memory_Init, if_pos h]
  have hfirst : ∀ st : AllocState, st.isInitialized = false →
      (Memory_Init st).heap.read 0
          = ⟨POOL_SIZE - headerSize, BlockStatus.FREE, none, none⟩
        ∧ (Memory_Init st).firstBlock = some 0
        ∧ (Memory_Init st).isInitialized = true := by
    intro st h
    rw [Memory_Init, if_neg (by simp [h])]
    refine ⟨?_, rfl, rfl⟩
    simp only [Heap.read_setPrev_self, Heap.read_setNext_self, Heap.read_setStatus_self,
      Heap.read_setSize_self]
  refine ⟨hfirst, hnoop, ?_⟩
  intro st
  by_cases h : st.isInitialized = true
  · rw [hnoop st h]
    exact hnoop st h
  · rw [hnoop _ ((hfirst st (by simpa using h)).2.2)]

/-- Witness for C7 at the concrete startup state. -/
theorem c7_witness :
    Memory_Init (Memory_Init initState) = Memory_Init initState
      ∧ (Memory_Init initState).isInitialized = true
      ∧ (Memory_Init initState).heap.read 0
          = ⟨POOL_SIZE - headerSize, BlockStatus.FREE, none, none⟩ := by
  have h := c7_init_idempotent
  exact ⟨h.2.2 initState, (h.1 initState rfl).2.2, (h.1 initState rfl).1⟩

/-- C8: releasing a `NULL` handle is a no-op (not an error), and a handle
whose header address `p - header_size` resolves outside
`[arena_base, arena_base + POOL_SIZE)` is rejected (`InvalidPointer`
diagnostic only) with no mutation of allocator state. -/
theorem c8_free_null_invalid :
    (∀ st : AllocState, My_Free st none = st) ∧
    (∀ (st : AllocState) (p : Int),
      p - (headerSize : Int) < 0 ∨ (POOL_SIZE : Int) ≤ p - (headerSize : Int) →
      My_Free st (some p) = st) := by
  refine ⟨fun st => rfl, fun st p hp => ?_⟩
  simp only [My_Free]
  rw [if_pos (by simpa [headerSize] using hp)]

/-- Witness for C8 at concrete pointers (below and above the pool). -/
theorem c8_witness :
    My_Free readyState none = readyState
      ∧ My_Free readyState (some 0) = readyState
      ∧ My_Free readyState (some 20000) = readyState := by
  refine ⟨c8_free_null_invalid.1 readyState, ?_, ?_⟩
  · exact c8_free_null_invalid.2 readyState 0 (Or.inl (by decide))
  · exact c8_free_null_invalid.2 readyState 20000 (Or.inr (by decide))

/-- C10: for requested sizes `SIZE_MAX - 2`, `SIZE_MAX - 1` and `SIZE_MAX`,
the 4-byte round-up `(s + 3) & ~3` wraps modulo `2^64` to `0`, so the call
takes the zero-size rejection branch: it returns no handle and leaves an
initialized allocator state completely unchanged (no chain traversal, no
mutation), instead of reporting out-of-memory. -/
theorem c10_sizemax_roundup_wraps :
    roundUp (2 ^ 64 - 3) = 0 ∧ roundUp (2 ^ 64 - 2) = 0 ∧ roundUp (2 ^ 64 - 1) = 0 ∧
    (∀ st : AllocState, st.isInitialized = true →
      ∀ s : Nat, s = 2 ^ 64 - 3 ∨ s = 2 ^ 64 - 2 ∨ s = 2 ^ 64 - 1 →
        My_Malloc st s = (st, none)) := by
  refine ⟨by decide, by decide, by decide, ?_⟩
  intro st hinit s hs
  have h0 : roundUp s = 0 := by
    rcases hs with rfl | rfl | rfl
    · decide
    · decide
    · decide
  rw [My_Malloc]
  simp only [hinit]
  rw [if_pos trivial, if_pos h0]

/-- Witness for C10 on the freshly initialized state. -/
theorem c10_witness :
    readyState.isInitialized = true
      ∧ My_Malloc readyState (2 ^ 64 - 1) = (readyState, none) := by
  refine ⟨rfl, ?_⟩
  exact c10_sizemax_roundup_wraps.2.2.2 readyState rfl _ (Or.inr (Or.inr rfl))

/-- C9 counterexample: running the claimed scenario (fresh 10,240-byte
arena; `allocate(100)`, `allocate(200)`, `allocate(300)`, then release of
the 200-byte handle) leaves a 4-block chain with TWO ALLOCATED and TWO
FREE blocks (the freed 200-byte block and the trailing remainder), so the
claim's "three ALLOCATED and exactly one FREE" is false on the code. -/
theorem c9_counterexample :
    (let a1 := My_Malloc readyState 100
     let a2 := My_Malloc a1.1 200
     let a3 := My_Malloc a2.1 300
     let L := (theChain (My_Free a3.1 a2.2)).getD []
     L.length = 4
       ∧ L.countP (fun q => decide (q.2.status = BlockStatus.ALLOCATED)) = 2
       ∧ L.countP (fun q => decide (q.2.status = BlockStatus.FREE)) = 2
       ∧ ¬(L.countP (fun q => decide (q.2.status = BlockStatus.ALLOCATED)) = 3
           ∧ L.countP (fun q => decide (q.2.status = BlockStatus.FREE)) = 1)) := by
  decide

/-- C9 (amended): the three allocations succeed with distinct,
non-overlapping data regions (handles 32, 164, 396 with extents 100, 200,
300), and after releasing the 200-byte handle the chain shows exactly 4
blocks: the freed block FREE of size 200, unmerged since both its
neighbors (the 100- and 300-byte blocks) are still ALLOCATED, plus the
trailing FREE remainder of size 9512. -/
theorem c9_scenario :
    (let a1 := My_Malloc readyState 100
     let a2 := My_Malloc a1.1 200
     let a3 := My_Malloc a2.1 300
     a1.2 = some 32 ∧ a2.2 = some 164 ∧ a3.2 = some 396
       ∧ (32 : Int) + 100 ≤ 164 ∧ (164 : Int) + 200 ≤ 396
       ∧ theChain (My_Free a3.1 a2.2)
           = some [(0, ⟨100, BlockStatus.ALLOCATED, some 132, none⟩),
               (132, ⟨200, BlockStatus.FREE, some 364, some 0⟩),
               (364, ⟨300, BlockStatus.ALLOCATED, some 696, some 132⟩),
               (696, ⟨9512, BlockStatus.FREE, none, some 364⟩)]) := by
  decide

/-! ## Rounding characterization -/

theorem land_mask4 {x : Nat} (hx : x < 2 ^ 64) : x &&& (2 ^ 64 - 4) = x / 4 * 4 := by
  apply Nat.eq_of_testBit_eq
  intro i
  have hmask : (2 ^ 64 - 4 : Nat) = (2 ^ 62 - 1) <<< 2 := by decide
  have hdiv : x / 4 * 4 = (x >>> 2) <<< 2 := by
    rw [Nat.shiftLeft_eq, Nat.shiftRight_eq_div_pow]
  simp only [Nat.testBit_land, hmask, hdiv, Nat.testBit_shiftLeft,
    Nat.testBit_shiftRight, Nat.testBit_two_pow_sub_one]
  by_cases h2 : 2 ≤ i
  · by_cases h64 : i < 64
    · have hi : 2 + (i - 2) = i := by omega
      have hlt : i - 2 < 62 := by omega
      simp [h2, hlt, hi]
    · have hxf : x.testBit i = false :=
        Nat.testBit_lt_two_pow
          (lt_of_lt_of_le hx (Nat.pow_le_pow_right (by norm_num) (by omega)))
      have hxf2 : x.testBit (2 + (i - 2)) = false := by
        have hi : 2 + (i - 2) = i := by omega
        rw [hi]
        exact hxf
      have hge : ¬(i - 2 < 62) := by omega
      simp [h2, hge, hxf, hxf2]
  · simp [h2]

/-- For non-wrapping inputs the round-up computes the least multiple of 4
that is `≥ s`. -/
theorem roundUp_eq {s : Nat} (h : s + 3 < SIZE_MOD) : roundUp s = (s + 3) / 4 * 4 := by
  rw [roundUp]
  have hm : (s + 3) % SIZE_MOD = s + 3 := Nat.mod_eq_of_lt h
  rw [hm]
  exact land_mask4 h

theorem roundUp_props {s : Nat} (h : s + 3 < SIZE_MOD) :
    roundUp s % 4 = 0 ∧ s ≤ roundUp s ∧ roundUp s < s + 4 := by
  rw [roundUp_eq h]
  have hdm := Nat.div_add_mod (s + 3) 4
  have hml : (s + 3) % 4 < 4 := Nat.mod_lt _ (by norm_num)
  refine ⟨Nat.mul_mod_left _ _, ?_, ?_⟩ <;> omega

/-! ## First-fit characterization -/

theorem aMallocGo_map_snd {s : Nat} :
    ∀ {l : List ABlock} {base : Int},
      (aMallocGo s base l).map Prod.snd = (firstFit s base l).map (· + 32) := by
  intro l
  induction l with
  | nil => intro base; rfl
  | cons b rest ih =>
    intro base
    rw [aMallocGo, firstFit]
    split
    · split <;> rfl
    · cases hrec : aMallocGo s (base + 32 + (b.size : Int)) rest with
      | none =>
        have := @ih (base + 32 + (b.size : Int))
        rw [hrec] at this
        rw [← this]
      | some v =>
        have := @ih (base + 32 + (b.size : Int))
        rw [hrec] at this
        obtain ⟨l₂, r₂⟩ := v
        rw [← this]
        rfl

/-- C1: on an initialized allocator satisfying the invariant, `allocate(s)`
first rounds `s` up to the next multiple of 4 (for any non-wrapping
request); a rounded size of 0 is rejected with no handle and no state
change (`InvalidSize`); otherwise the chain is traversed from the first
block in address order and the handle is the data region (address after
the 32-byte header) of the first FREE block whose size is ≥ the rounded
size; if no such block exists the call returns no handle and performs no
mutation, retry or compaction (`OutOfMemory`). -/
theorem c1_malloc_first_fit {st : AllocState} {l : List ABlock}
    (hm : Models st l) (s : Nat) :
    (∀ t : Nat, t + 3 < SIZE_MOD →
      roundUp t % 4 = 0 ∧ t ≤ roundUp t ∧ roundUp t < t + 4) ∧
    (roundUp s = 0 → My_Malloc st s = (st, none)) ∧
    (roundUp s ≠ 0 → firstFit (roundUp s) 0 l = none → My_Malloc st s = (st, none)) ∧
    (roundUp s ≠ 0 → ∀ a : Int, firstFit (roundUp s) 0 l = some a →
      (My_Malloc st s).2 = some (a + 32)) := by
  have SIM := malloc_sim hm s
  refine ⟨fun t ht => roundUp_props ht, SIM.1, ?_, ?_⟩
  · intro hne0 hff
    have hbr := @aMallocGo_map_snd (roundUp s) l 0
    rw [hff] at hbr
    cases hgo : aMallocGo (roundUp s) 0 l with
    | none => exact (SIM.2 hne0).1 hgo
    | some v =>
      rw [hgo] at hbr
      exact absurd hbr (by simp)
  · intro hne0 a hff
    have hbr := @aMallocGo_map_snd (roundUp s) l 0
    rw [hff] at hbr
    cases hgo : aMallocGo (roundUp s) 0 l with
    | none =>
      rw [hgo] at hbr
      exact absurd hbr (by simp)
    | some v =>
      obtain ⟨l₂, r₂⟩ := v
      rw [hgo] at hbr
      have hr : r₂ = a + 32 := by
        have hbr2 : some ((l₂, r₂).snd) = some (a + 32) := hbr
        injection hbr2
      obtain ⟨h', heq, _⟩ := (SIM.2 hne0).2 l₂ r₂ hgo
      rw [heq, hr]

/-- Witness for C1 on the fresh state with request 4: the rounding facts
and a successful first-fit at the arena base. -/
theorem c1_witness :
    roundUp 4 % 4 = 0 ∧ 4 ≤ roundUp 4 ∧ roundUp 4 < 8
      ∧ (My_Malloc readyState 4).2 = some 32 := by
  have h := c1_malloc_first_fit models_readyState 4
  have hprops := h.1 4 (by norm_num [SIZE_MOD])
  refine ⟨hprops.1, hprops.2.1, hprops.2.2, ?_⟩
  have := h.2.2.2 (by decide) 0 (by decide)
  simpa using this

theorem aMallocGo_append {s : Nat} :
    ∀ {l₁ : List ABlock} {base : Int} {l₂ : List ABlock},
      (∀ b ∈ l₁, ¬(b.status = BlockStatus.FREE ∧ s ≤ b.size)) →
      aMallocGo s base (l₁ ++ l₂)
        = (aMallocGo s (base + (sumLen l₁ : Int)) l₂).map (fun v => (l₁ ++ v.1, v.2)) := by
  intro l₁
  induction l₁ with
  | nil =>
    intro base l₂ _
    simp only [List.nil_append, sumLen_nil, Nat.cast_zero, add_zero]
    cases aMallocGo s base l₂ with
    | none => rfl
    | some v => rfl
  | cons b rest ih =>
    intro base l₂ hpre
    have hb : ¬(b.status = BlockStatus.FREE ∧ s ≤ b.size) := hpre b (by simp)
    rw [List.cons_append, aMallocGo, if_neg hb]
    rw [ih (fun x hx => hpre x (by simp [hx]))]
    have haddr : base + 32 + (b.size : Int) + (sumLen rest : Int)
        = base + (sumLen (b :: rest) : Int) := by
      rw [sumLen_cons]
      push_cast
      ring
    rw [haddr]
    cases aMallocGo s (base + (sumLen (b :: rest) : Int)) l₂ with
    | none => rfl
    | some v => rfl

/-- C2: for a successful `allocate` whose rounded size is `s'` and whose
first-fit candidate is `c` (no earlier block fits), the candidate is split
if and only if `c.size ≥ s' + header_size + header_size`; when it is, a new
FREE block of data size `c.size - s' - header_size` is carved immediately
after the consumed region and spliced in as `c`'s successor (with all
next/prev re-linking captured by the resulting well-formed chain), `c`'s
size shrinks to `s'`, and the new FREE block's size is ≥ header_size (so
no sub-header fragment is ever produced); otherwise `c` is allocated
as-is, its size unchanged, absorbing the surplus. -/
theorem c2_split_iff {st : AllocState} {l₁ : List ABlock} {c : ABlock}
    {l₂ : List ABlock} {s : Nat}
    (hm : Models st (l₁ ++ c :: l₂))
    (hpre : ∀ b ∈ l₁, ¬(b.status = BlockStatus.FREE ∧ roundUp s ≤ b.size))
    (hcf : c.status = BlockStatus.FREE) (hcs : roundUp s ≤ c.size)
    (hne0 : roundUp s ≠ 0) :
    (roundUp s + 32 + 32 ≤ c.size →
      ∃ h', My_Malloc st s = ({ st with heap := h' }, some ((sumLen l₁ : Int) + 32))
        ∧ Models { st with heap := h' }
            (l₁ ++ ⟨roundUp s, BlockStatus.ALLOCATED⟩
              :: ⟨c.size - roundUp s - 32, BlockStatus.FREE⟩ :: l₂)
        ∧ 32 ≤ c.size - roundUp s - 32) ∧
    (¬(roundUp s + 32 + 32 ≤ c.size) →
      ∃ h', My_Malloc st s = ({ st with heap := h' }, some ((sumLen l₁ : Int) + 32))
        ∧ Models { st with heap := h' } (l₁ ++ ⟨c.size, BlockStatus.ALLOCATED⟩ :: l₂)) := by
  have SIM := (malloc_sim hm s).2 hne0
  have hgo := @aMallocGo_append (roundUp s) _ 0 (c :: l₂) hpre
  rw [zero_add] at hgo
  constructor
  · intro hsplit
    rw [aMallocGo, if_pos ⟨hcf, hcs⟩, if_pos hsplit] at hgo
    have hgo' : aMallocGo (roundUp s) 0 (l₁ ++ c :: l₂)
        = some (l₁ ++ (⟨roundUp s, BlockStatus.ALLOCATED⟩ : ABlock)
            :: (⟨c.size - roundUp s - 32, BlockStatus.FREE⟩ : ABlock) :: l₂,
          (sumLen l₁ : Int) + 32) := hgo
    obtain ⟨h', heq, hmod⟩ := SIM.2 _ _ hgo'
    exact ⟨h', heq, hmod, by omega⟩
  · intro hsplit
    rw [aMallocGo, if_pos ⟨hcf, hcs⟩, if_neg hsplit] at hgo
    have hgo' : aMallocGo (roundUp s) 0 (l₁ ++ c :: l₂)
        = some (l₁ ++ (⟨c.size, BlockStatus.ALLOCATED⟩ : ABlock) :: l₂,
          (sumLen l₁ : Int) + 32) := hgo
    obtain ⟨h', heq, hmod⟩ := SIM.2 _ _ hgo'
    exact ⟨h', heq, hmod⟩

/-- Witness for C2: request 4 on the fresh single-block chain splits the
arena block. -/
theorem c2_witness :
    ∃ h', My_Malloc readyState 4
        = ({ readyState with heap := h' }, some ((sumLen ([] : List ABlock) : Int) + 32))
      ∧ Models { readyState with heap := h' }
          ([] ++ (⟨roundUp 4, BlockStatus.ALLOCATED⟩ : ABlock)
            :: (⟨(POOL_SIZE - 32) - roundUp 4 - 32, BlockStatus.FREE⟩ : ABlock) :: [])
      ∧ 32 ≤ (POOL_SIZE - 32) - roundUp 4 - 32 :=
  (@c2_split_iff readyState [] ⟨POOL_SIZE - 32, BlockStatus.FREE⟩ [] 4
    models_readyState (by simp) rfl
    (by decide) (by decide)).1 (by decide)

/-- C3: releasing a valid handle whose block is `b` (chain decomposed as
`l₁ ++ b :: l₂`) marks `b` FREE, then absorbs the chain successor if it is
FREE (size grows by `header_size + successor.size`, the chain skips the
absorbed node, the new successor's `prev` is fixed), then symmetrically
absorbs the (possibly forward-merged) block into its predecessor if that
is FREE — the abstract effect is `freeResult`; in particular when both
neighbors are FREE the result is a single FREE block spanning all three
original extents. -/
theorem c3_free_coalesce {st : AllocState} {l₁ : List ABlock} {b : ABlock}
    {l₂ : List ABlock}
    (hm : Models st (l₁ ++ b :: l₂)) (hballoc : b.status = BlockStatus.ALLOCATED) :
    My_Free st (some ((sumLen l₁ : Int) + 32))
        = { st with heap := freeHeap st.heap (sumLen l₁ : Int) }
      ∧ Models { st with heap := freeHeap st.heap (sumLen l₁ : Int) }
          (freeResult l₁ b l₂)
      ∧ (∀ l₁' pb b2 rest, l₁ = l₁' ++ [pb] → l₂ = b2 :: rest →
          pb.status = BlockStatus.FREE → b2.status = BlockStatus.FREE →
          freeResult l₁ b l₂
            = l₁' ++ (⟨pb.size + 32 + b.size + 32 + b2.size,
                BlockStatus.FREE⟩ : ABlock) :: rest) := by
  obtain ⟨heq, hmod⟩ := free_sim hm
  refine ⟨heq, hmod, ?_⟩
  intro l₁' pb b2 rest h1 h2 hpf hb2f
  subst h1
  subst h2
  rw [freeResult, fwdMerge, if_pos hb2f, bwdMerge_concat, if_pos hpf]
  have harith : pb.size + 32 + (b.size + 32 + b2.size)
      = pb.size + 32 + b.size + 32 + b2.size := by omega
  simp only [harith]

/-- Invariant state after `allocate(100)` on the fresh arena, used by
witnesses: one ALLOCATED block of 100 bytes and the FREE remainder. -/
theorem models_after_alloc100 :
    Models (My_Malloc readyState 100).1
      [(⟨100, BlockStatus.ALLOCATED⟩ : ABlock), ⟨10076, BlockStatus.FREE⟩] := by
  refine ⟨by decide, by decide, by simp, by decide, by decide, by decide, trivial⟩

/-- Witness for C3: free the 100-byte block allocated on the fresh arena. -/
theorem c3_witness :
    My_Free (My_Malloc readyState 100).1 (some ((sumLen ([] : List ABlock) : Int) + 32))
        = { (My_Malloc readyState 100).1 with
            heap := freeHeap (My_Malloc readyState 100).1.heap
              (sumLen ([] : List ABlock) : Int) }
      ∧ Models { (My_Malloc readyState 100).1 with
            heap := freeHeap (My_Malloc readyState 100).1.heap
              (sumLen ([] : List ABlock) : Int) }
          (freeResult [] ⟨100, BlockStatus.ALLOCATED⟩ [⟨10076, BlockStatus.FREE⟩]) := by
  have h := @c3_free_coalesce _ [] ⟨100, BlockStatus.ALLOCATED⟩
    [⟨10076, BlockStatus.FREE⟩] models_after_alloc100 rfl
  exact ⟨h.1, h.2.1⟩

/-! ## Chain shape -/

theorem layoutTo_ne_nil {l : List ABlock} (h : l ≠ []) (base : Int) (pa na : Option Int) :
    layoutTo base pa na l ≠ [] := by
  cases l with
  | nil => exact absurd rfl h
  | cons b rest => simp [layoutTo]

theorem chain'_layoutTo :
    ∀ (l : List ABlock) (base : Int) (pa na : Option Int),
      List.Chain' (fun p q : Int × MemoryBlockHeader =>
          p.1 + 32 + (p.2.size : Int) = q.1
            ∧ p.2.next = some q.1 ∧ q.2.prev = some p.1)
        (layoutTo base pa na l) := by
  intro l
  induction l with
  | nil => intro base pa na; simp [layoutTo]
  | cons b rest ih =>
    intro base pa na
    rw [layoutTo]
    refine List.chain'_cons'.mpr ⟨?_, ih _ _ _⟩
    intro y hy
    cases rest with
    | nil => simp [layoutTo] at hy
    | cons r rs =>
      rw [layoutTo] at hy
      simp only [List.head?_cons, Option.mem_def, Option.some.injEq] at hy
      rw [← hy]
      exact ⟨rfl, rfl, rfl⟩

theorem layoutTo_getLast :
    ∀ (l : List ABlock), l ≠ [] → ∀ (base : Int) (pa na : Option Int),
      ∃ a hdr, (layoutTo base pa na l).getLast? = some (a, hdr)
        ∧ a + 32 + (hdr.size : Int) = base + (sumLen l : Int) ∧ hdr.next = na := by
  intro l
  induction l with
  | nil => intro h; exact absurd rfl h
  | cons b rest ih =>
    intro _ base pa na
    cases rest with
    | nil =>
      refine ⟨base, ⟨b.size, b.status, na, pa⟩, ?_, ?_, rfl⟩
      · rw [layoutTo, layoutTo]
        rfl
      · rw [sumLen_cons, sumLen_nil]
        push_cast
        ring
    | cons r rs =>
      obtain ⟨a, hdr, hgl, hend, hnx⟩ :=
        ih (by simp) (base + 32 + (b.size : Int)) (some base) na
      refine ⟨a, hdr, ?_, ?_, hnx⟩
      · exact hgl
      · rw [hend]
        have hsc : sumLen (b :: r :: rs) = 32 + b.size + sumLen (r :: rs) :=
          sumLen_cons _ _
        omega

theorem models_chainShape {st : AllocState} {l : List ABlock} (hm : Models st l) :
    chainShape st := by
  have hch := theChain_of_models hm
  obtain ⟨hinit, hfb, hne, hsum, hA⟩ := hm
  refine ⟨layoutTo 0 none none l, hch, layoutTo_ne_nil hne _ _ _, ?_, ?_, ?_, ?_,
    chain'_layoutTo l 0 none none⟩
  · cases l with
    | nil => exact absurd rfl hne
    | cons b rest => rw [layoutTo]; rfl
  · cases l with
    | nil => exact absurd rfl hne
    | cons b rest => rw [layoutTo]; rfl
  · obtain ⟨a, hdr, hgl, _, hnx⟩ := layoutTo_getLast l hne 0 none none
    rw [hgl]
    show some hdr.next = some none
    rw [hnx]
  · obtain ⟨a, hdr, hgl, hend, _⟩ := layoutTo_getLast l hne 0 none none
    rw [hgl]
    show some (a + 32 + (hdr.size : Int)) = some ((POOL_SIZE : Nat) : Int)
    rw [hend, hsum]
    norm_num

/-- C4: after `init`, and after every `allocate` and every `release`
applied to an invariant-satisfying state with valid inputs, the invariant
holds and with it the claimed chain shape: the chain is a single
address-ordered doubly-linked list whose first block starts at the arena
base, each block's `address + header_size + size` equals its successor's
address (no gaps, no overlaps, covering exactly `POOL_SIZE` bytes), and
`next`/`prev` pointers are mutually consistent wherever the neighbor
exists. -/
theorem c4_chain_invariant :
    (∃ l, Models readyState l) ∧
    (∀ st l, Models st l → chainShape st) ∧
    (∀ st l (s : Nat), Models st l → ∃ l', Models (My_Malloc st s).1 l') ∧
    (∀ st l ptr, Models st l → ValidFreeArg l ptr → ∃ l', Models (My_Free st ptr) l') := by
  refine ⟨⟨_, models_readyState⟩, fun st l hm => models_chainShape hm, ?_, ?_⟩
  · intro st l s hm
    have SIM := malloc_sim hm s
    by_cases h0 : roundUp s = 0
    · rw [SIM.1 h0]
      exact ⟨l, hm⟩
    · cases hgo : aMallocGo (roundUp s) 0 l with
      | none =>
        rw [(SIM.2 h0).1 hgo]
        exact ⟨l, hm⟩
      | some v =>
        obtain ⟨l₂, r₂⟩ := v
        obtain ⟨h', heq, hmod⟩ := (SIM.2 h0).2 l₂ r₂ hgo
        rw [heq]
        exact ⟨l₂, hmod⟩
  · intro st l ptr hm hvalid
    rcases hvalid with rfl | ⟨p, rfl, hp⟩ | ⟨l₁, b, l₂, rfl, rfl⟩
    · exact ⟨l, hm⟩
    · have : My_Free st (some p) = st := by
        simp only [My_Free]
        rw [if_pos hp]
      rw [this]
      exact ⟨l, hm⟩
    · obtain ⟨heq, hmod⟩ := free_sim hm
      rw [heq]
      exact ⟨freeResult l₁ b l₂, hmod⟩

/-- Witness for C4 at the fresh state, a concrete allocation and a no-op
release. -/
theorem c4_witness :
    (∃ l, Models readyState l) ∧ chainShape readyState
      ∧ (∃ l', Models (My_Malloc readyState 100).1 l')
      ∧ (∃ l', Models (My_Free readyState none) l') := by
  have h := c4_chain_invariant
  exact ⟨h.1, h.2.1 readyState _ models_readyState,
    h.2.2.1 readyState _ 100 models_readyState,
    h.2.2.2 readyState _ none models_readyState (Or.inl rfl)⟩

/-! ## Coalescing invariant -/

theorem noAdjFree_freeResult :
    ∀ (l₁ : List ABlock) (b : ABlock) (l₂ : List ABlock),
      NoAdjFree (l₁ ++ b :: l₂) → NoAdjFree (freeResult l₁ b l₂) := by
  intro l₁ b l₂ h
  rw [NoAdjFree, List.chain'_append] at h
  obtain ⟨h1, h2, hbd⟩ := h
  rw [freeResult]
  -- facts about the forward-merged block and its successor list
  have hfwd : (fwdMerge ⟨b.size, BlockStatus.FREE⟩ l₂).1.status = BlockStatus.FREE
      ∧ List.Chain' (fun x y : ABlock =>
          ¬(x.status = BlockStatus.FREE ∧ y.status = BlockStatus.FREE))
          ((fwdMerge ⟨b.size, BlockStatus.FREE⟩ l₂).2)
      ∧ (∀ y ∈ ((fwdMerge ⟨b.size, BlockStatus.FREE⟩ l₂).2).head?,
          y.status ≠ BlockStatus.FREE) := by
    cases l₂ with
    | nil =>
      rw [fwdMerge]
      exact ⟨rfl, by simp, by simp⟩
    | cons b2 rest =>
      have hC2 : List.Chain' _ (b2 :: rest) := (List.chain'_cons'.mp h2).2
      have hRrest := (List.chain'_cons'.mp hC2).1
      have hCrest := (List.chain'_cons'.mp hC2).2
      by_cases hF : b2.status = BlockStatus.FREE
      · rw [fwdMerge, if_pos hF]
        refine ⟨rfl, hCrest, ?_⟩
        intro y hy hyF
        exact hRrest y hy ⟨hF, hyF⟩
      · rw [fwdMerge, if_neg hF]
        refine ⟨rfl, hC2, ?_⟩
        intro y hy
        simp only [List.head?_cons, Option.mem_def, Option.some.injEq] at hy
        rw [← hy]
        exact hF
  obtain ⟨hf1, hf2, hfb⟩ := hfwd
  rcases l₁.eq_nil_or_concat' with rfl | ⟨l₁', pb, rfl⟩
  · rw [bwdMerge_nil, NoAdjFree]
    refine List.chain'_cons'.mpr ⟨?_, hf2⟩
    intro y hy
    exact fun hc => hfb y hy hc.2
  · rw [bwdMerge_concat]
    have hsplit1 := (List.chain'_append).mp h1
    obtain ⟨hC1', _, hbd1⟩ := hsplit1
    by_cases hPF : pb.status = BlockStatus.FREE
    · rw [if_pos hPF]
      rw [NoAdjFree, List.chain'_append]
      refine ⟨hC1', List.chain'_cons'.mpr ⟨?_, hf2⟩, ?_⟩
      · intro y hy
        exact fun hc => hfb y hy hc.2
      · intro x hx y hy
        simp only [List.head?_cons, Option.mem_def, Option.some.injEq] at hy
        rw [← hy]
        intro hc
        exact hbd1 x hx pb (Option.mem_def.mpr rfl) ⟨hc.1, hPF⟩
    · rw [if_neg hPF]
      rw [NoAdjFree, List.chain'_append]
      refine ⟨h1, List.chain'_cons'.mpr ⟨?_, hf2⟩, ?_⟩
      · intro y hy
        exact fun hc => hfb y hy hc.2
      · intro x hx y hy
        rw [List.getLast?_concat] at hx
        simp only [Option.mem_def, Option.some.injEq] at hx
        simp only [List.head?_cons, Option.mem_def, Option.some.injEq] at hy
        rw [← hx, ← hy]
        exact fun hc => hPF hc.1

/-- C5: on any invariant-satisfying state whose chain has no two adjacent
FREE blocks, immediately after any `release` call (null handle, rejected
out-of-pool pointer, or genuine block handle) returns, the chain again has
no two adjacent FREE blocks. -/
theorem c5_coalescing_invariant {st : AllocState} {l : List ABlock} {ptr : Option Int}
    (hm : Models st l) (hnaf : NoAdjFree l) (hvalid : ValidFreeArg l ptr) :
    ∃ l', Models (My_Free st ptr) l' ∧ NoAdjFree l' := by
  rcases hvalid with rfl | ⟨p, rfl, hp⟩ | ⟨l₁, b, l₂, rfl, rfl⟩
  · exact ⟨l, hm, hnaf⟩
  · have hnoop : My_Free st (some p) = st := by
      simp only [My_Free]
      rw [if_pos hp]
    rw [hnoop]
    exact ⟨l, hm, hnaf⟩
  · obtain ⟨heq, hmod⟩ := free_sim hm
    rw [heq]
    exact ⟨_, hmod, noAdjFree_freeResult _ _ _ hnaf⟩

/-- Witness for C5: freeing the 100-byte block on the two-block chain. -/
theorem c5_witness :
    ∃ l', Models (My_Free (My_Malloc readyState 100).1
        (some ((sumLen ([] : List ABlock) : Int) + 32))) l' ∧ NoAdjFree l' := by
  refine c5_coalescing_invariant models_after_alloc100 ?_ ?_
  · rw [NoAdjFree]
    simp [List.chain'_cons]
  · exact Or.inr (Or.inr ⟨[], ⟨100, BlockStatus.ALLOCATED⟩, [⟨10076, BlockStatus.FREE⟩],
      rfl, rfl⟩)

/-! ## Outstanding-handle bookkeeping -/

theorem allocatedAddrs_append :
    ∀ (xs ys : List ABlock) (base : Int),
      allocatedAddrs base (xs ++ ys)
        = allocatedAddrs base xs ++ allocatedAddrs (base + (sumLen xs : Int)) ys := by
  intro xs
  induction xs with
  | nil =>
    intro ys base
    simp [allocatedAddrs, sumLen]
  | cons b rest ih =>
    intro ys base
    rw [List.cons_append]
    rw [allocatedAddrs, allocatedAddrs, ih]
    have haddr : base + 32 + (b.size : Int) + (sumLen rest : Int)
        = base + (sumLen (b :: rest) : Int) := by
      rw [sumLen_cons]
      push_cast
      ring
    rw [haddr, List.append_assoc]

theorem mem_allocatedAddrs_decomp :
    ∀ {l : List ABlock} {base x : Int}, x ∈ allocatedAddrs base l →
      ∃ l₁ b l₂, l = l₁ ++ b :: l₂ ∧ b.status = BlockStatus.ALLOCATED
        ∧ x = base + (sumLen l₁ : Int) + 32 := by
  intro l
  induction l with
  | nil => intro base x h; simp [allocatedAddrs] at h
  | cons b rest ih =>
    intro base x h
    rw [allocatedAddrs] at h
    rcases List.mem_append.mp h with h1 | h2
    · by_cases hb : b.status = BlockStatus.ALLOCATED
      · rw [if_pos hb] at h1
        simp only [List.mem_singleton] at h1
        exact ⟨[], b, rest, rfl, hb, by rw [h1, sumLen_nil]; push_cast; ring⟩
      · rw [if_neg hb] at h1
        simp at h1
    · obtain ⟨l₁, c, l₂, heq, hc, hx⟩ := ih h2
      refine ⟨b :: l₁, c, l₂, by rw [heq, List.cons_append], hc, ?_⟩
      rw [hx, sumLen_cons]
      push_cast
      ring

theorem fwdMerge_fst_status (x : ABlock) (l₂ : List ABlock) :
    (fwdMerge x l₂).1.status = x.status := by
  cases l₂ with
  | nil => rfl
  | cons b2 rest =>
    rw [fwdMerge]
    by_cases hF : b2.status = BlockStatus.FREE
    · rw [if_pos hF]
    · rw [if_neg hF]

theorem allocatedAddrs_fwdMerge (b : ABlock) (hb : b.status = BlockStatus.FREE)
    (l₂ : List ABlock) (ab : Int) :
    allocatedAddrs ab ((fwdMerge b l₂).1 :: (fwdMerge b l₂).2)
      = allocatedAddrs (ab + 32 + (b.size : Int)) l₂ := by
  cases l₂ with
  | nil =>
    rw [fwdMerge]
    simp [allocatedAddrs, hb]
  | cons b2 rest =>
    by_cases hF : b2.status = BlockStatus.FREE
    · rw [fwdMerge, if_pos hF]
      rw [allocatedAddrs, allocatedAddrs]
      have hb' : ((⟨b.size + 32 + b2.size, b.status⟩ : ABlock).status
          = BlockStatus.ALLOCATED) = False := by
        simp [hb]
      have hb2' : (b2.status = BlockStatus.ALLOCATED) = False := by
        simp [hF]
      rw [if_neg (by simp [hb]), if_neg (by simp [hF])]
      simp only [List.nil_append]
      congr 1
      push_cast
      ring
    · rw [fwdMerge, if_neg hF]
      rw [allocatedAddrs]
      rw [if_neg (by simp [hb])]
      simp only [List.nil_append]

theorem allocatedAddrs_freeResult (l₁ : List ABlock) (b : ABlock) (l₂ : List ABlock)
    (base : Int) :
    allocatedAddrs base (freeResult l₁ b l₂)
      = allocatedAddrs base l₁
        ++ allocatedAddrs (base + (sumLen l₁ : Int) + 32 + (b.size : Int)) l₂ := by
  rw [freeResult]
  rcases l₁.eq_nil_or_concat' with rfl | ⟨l₁', pb, rfl⟩
  · rw [bwdMerge_nil]
    rw [allocatedAddrs_fwdMerge ⟨b.size, BlockStatus.FREE⟩ rfl l₂ base]
    simp only [allocatedAddrs, sumLen_nil, List.nil_append]
    congr 1
    push_cast
    ring
  · rw [bwdMerge_concat]
    have hf1F : (fwdMerge (⟨b.size, BlockStatus.FREE⟩ : ABlock) l₂).1.status
        = BlockStatus.FREE := fwdMerge_fst_status _ _
    have hsum1 : (sumLen (l₁' ++ [pb]) : Int)
        = (sumLen l₁' : Int) + 32 + (pb.size : Int) := by
      rw [sumLen_append, sumLen_cons, sumLen_nil]
      push_cast
      ring
    by_cases hPF : pb.status = BlockStatus.FREE
    · rw [if_pos hPF]
      have hkey := allocatedAddrs_fwdMerge ⟨b.size, BlockStatus.FREE⟩ rfl l₂
        (base + (sumLen l₁' : Int) + 32 + (pb.size : Int))
      rw [allocatedAddrs] at hkey
      rw [if_neg (by simp [hf1F])] at hkey
      simp only [List.nil_append] at hkey
      rw [allocatedAddrs_append, allocatedAddrs_append]
      simp only [allocatedAddrs]
      rw [if_neg (by simp), if_neg (by simp [hPF])]
      simp only [List.nil_append, List.append_nil]
      rw [show base + (sumLen l₁' : Int) + 32
            + (((pb.size + 32
              + (fwdMerge (⟨b.size, BlockStatus.FREE⟩ : ABlock) l₂).1.size : Nat)) : Int)
          = base + (sumLen l₁' : Int) + 32 + (pb.size : Int) + 32
            + ((fwdMerge (⟨b.size, BlockStatus.FREE⟩ : ABlock) l₂).1.size : Int) from by
        push_cast
        ring]
      rw [hkey]
      congr 1
      rw [hsum1]
      ring
    · rw [if_neg hPF]
      rw [allocatedAddrs_append]
      rw [allocatedAddrs_fwdMerge ⟨b.size, BlockStatus.FREE⟩ rfl l₂
        (base + (sumLen (l₁' ++ [pb]) : Int))]

theorem aMallocGo_allocatedAddrs {s : Nat} :
    ∀ {l : List ABlock} {base : Int} {l' : List ABlock} {r : Int},
      aMallocGo s base l = some (l', r) →
      (allocatedAddrs base l').Perm (r :: allocatedAddrs base l) := by
  intro l
  induction l with
  | nil => intro base l' r h; simp [aMallocGo] at h
  | cons b rest ih =>
    intro base l' r h
    rw [aMallocGo] at h
    split at h
    · rename_i hfit
      have hbF : b.status = BlockStatus.FREE := hfit.1
      split at h
      · rename_i hsplit
        simp only [Option.some.injEq, Prod.mk.injEq] at h
        rw [← h.1, ← h.2]
        have haddr : base + 32 + ((s : Nat) : Int) + 32 + ((b.size - s - 32 : Nat) : Int)
            = base + 32 + (b.size : Int) := by omega
        simp only [allocatedAddrs]
        simp [hbF, haddr]
      · rename_i hsplit
        simp only [Option.some.injEq, Prod.mk.injEq] at h
        rw [← h.1, ← h.2]
        simp only [allocatedAddrs]
        simp [hbF]
    · rename_i hnofit
      cases hrec : aMallocGo s (base + 32 + (b.size : Int)) rest with
      | none =>
        rw [hrec] at h
        exact absurd h (by simp)
      | some v =>
        obtain ⟨l₂, r₂⟩ := v
        rw [hrec] at h
        simp only [Option.some.injEq, Prod.mk.injEq] at h
        rw [← h.1, ← h.2]
        have IH := ih hrec
        by_cases hb : b.status = BlockStatus.ALLOCATED
        · simp only [allocatedAddrs, if_pos hb, List.singleton_append]
          refine (IH.cons (base + 32)).trans ?_
          exact List.Perm.swap _ _ _
        · simp only [allocatedAddrs, if_neg hb, List.nil_append]
          exact IH

theorem aMallocGo_noAdjFree {s : Nat} :
    ∀ {l : List ABlock} {base : Int} {l' : List ABlock} {r : Int},
      aMallocGo s base l = some (l', r) → NoAdjFree l → NoAdjFree l' := by
  intro l
  induction l with
  | nil => intro base l' r h _; simp [aMallocGo] at h
  | cons b rest ih =>
    intro base l' r h hnaf
    have hC : List.Chain' _ rest := (List.chain'_cons'.mp hnaf).2
    have hR := (List.chain'_cons'.mp hnaf).1
    rw [aMallocGo] at h
    split at h
    · rename_i hfit
      have hbF : b.status = BlockStatus.FREE := hfit.1
      split at h
      · simp only [Option.some.injEq, Prod.mk.injEq] at h
        rw [← h.1]
        refine List.chain'_cons'.mpr ⟨?_, List.chain'_cons'.mpr ⟨?_, hC⟩⟩
        · intro y hy
          simp only [List.head?_cons, Option.mem_def, Option.some.injEq] at hy
          rw [← hy]
          rintro ⟨hc, _⟩
          simp at hc
        · intro y hy hc
          exact hR y hy ⟨hbF, hc.2⟩
      · simp only [Option.some.injEq, Prod.mk.injEq] at h
        rw [← h.1]
        refine List.chain'_cons'.mpr ⟨?_, hC⟩
        intro y hy
        rintro ⟨hc, _⟩
        simp at hc
    · cases hrec : aMallocGo s (base + 32 + (b.size : Int)) rest with
      | none =>
        rw [hrec] at h
        exact absurd h (by simp)
      | some v =>
        obtain ⟨l₂, r₂⟩ := v
        rw [hrec] at h
        simp only [Option.some.injEq, Prod.mk.injEq] at h
        rw [← h.1]
        refine List.chain'_cons'.mpr ⟨?_, ih hrec hC⟩
        intro y hy hc
        cases rest with
        | nil => simp [aMallocGo] at hrec
        | cons r1 rs =>
          rw [aMallocGo] at hrec
          split at hrec
          · split at hrec
            · simp only [Option.some.injEq, Prod.mk.injEq] at hrec
              rw [← hrec.1] at hy
              simp only [List.head?_cons, Option.mem_def, Option.some.injEq] at hy
              rw [← hy] at hc
              simp at hc
            · simp only [Option.some.injEq, Prod.mk.injEq] at hrec
              rw [← hrec.1] at hy
              simp only [List.head?_cons, Option.mem_def, Option.some.injEq] at hy
              rw [← hy] at hc
              simp at hc
          · cases hrec2 : aMallocGo s (base + 32 + (b.size : Int) + 32 + (r1.size : Int))
                rs with
            | none =>
              rw [hrec2] at hrec
              exact absurd hrec (by simp)
            | some v2 =>
              rw [hrec2] at hrec
              simp only [Option.some.injEq, Prod.mk.injEq] at hrec
              rw [← hrec.1] at hy
              simp only [List.head?_cons, Option.mem_def, Option.some.injEq] at hy
              rw [← hy] at hc
              exact hR r1 (Option.mem_def.mpr rfl) hc

theorem runAllocs_inv :
    ∀ (ss : List Nat) (st : AllocState) (l : List ABlock),
      Models st l → NoAdjFree l →
      (∀ r ∈ (runAllocs st ss).2, r ≠ none) →
      ∃ l', Models (runAllocs st ss).1 l' ∧ NoAdjFree l'
        ∧ (allocatedAddrs 0 l').Perm
            (allocatedAddrs 0 l ++ ((runAllocs st ss).2.filterMap id)) := by
  intro ss
  induction ss with
  | nil =>
    intro st l hm hnaf _
    exact ⟨l, hm, hnaf, by simp [runAllocs]⟩
  | cons s ss ih =>
    intro st l hm hnaf hall
    have SIM := malloc_sim hm s
    by_cases h0 : roundUp s = 0
    · exfalso
      have hr := hall (My_Malloc st s).2 (by rw [runAllocs]; simp)
      rw [SIM.1 h0] at hr
      exact hr rfl
    · cases hgo : aMallocGo (roundUp s) 0 l with
      | none =>
        exfalso
        have hr := hall (My_Malloc st s).2 (by rw [runAllocs]; simp)
        rw [(SIM.2 h0).1 hgo] at hr
        exact hr rfl
      | some v =>
        obtain ⟨l₂, r₂⟩ := v
        obtain ⟨h', heq, hmod⟩ := (SIM.2 h0).2 l₂ r₂ hgo
        have hrun : runAllocs st (s :: ss)
            = ((runAllocs { st with heap := h' } ss).1,
               some r₂ :: (runAllocs { st with heap := h' } ss).2) := by
          rw [runAllocs, heq]
        rw [hrun] at hall ⊢
        have htail : ∀ r ∈ (runAllocs { st with heap := h' } ss).2, r ≠ none := by
          intro r hr
          exact hall r (by simp [hr])
        obtain ⟨l₃, hm₃, hnaf₃, hperm₃⟩ :=
          ih { st with heap := h' } l₂ hmod (aMallocGo_noAdjFree hgo hnaf) htail
        refine ⟨l₃, hm₃, hnaf₃, ?_⟩
        refine hperm₃.trans ?_
        refine ((aMallocGo_allocatedAddrs hgo).append_right _).trans ?_
        simp only [List.filterMap_cons, id, List.cons_append]
        exact (List.perm_middle).symm

theorem runFrees_inv :
    ∀ (ps : List Int) (st : AllocState) (l : List ABlock),
      Models st l → NoAdjFree l → (allocatedAddrs 0 l).Perm ps →
      ∃ l', Models (runFrees st ps) l' ∧ NoAdjFree l' ∧ allocatedAddrs 0 l' = [] := by
  intro ps
  induction ps with
  | nil =>
    intro st l hm hnaf hperm
    exact ⟨l, hm, hnaf, List.Perm.eq_nil hperm⟩
  | cons p ps ih =>
    intro st l hm hnaf hperm
    have hp : p ∈ allocatedAddrs 0 l := hperm.mem_iff.mpr (by simp)
    obtain ⟨l₁, b, l₂, rfl, hb, hx⟩ := mem_allocatedAddrs_decomp hp
    have hp' : p = (sumLen l₁ : Int) + 32 := by omega
    obtain ⟨heq, hmod⟩ := free_sim hm
    rw [runFrees, hp', heq]
    apply ih _ _ hmod (noAdjFree_freeResult _ _ _ hnaf)
    rw [allocatedAddrs_freeResult]
    have horig : allocatedAddrs 0 (l₁ ++ b :: l₂)
        = allocatedAddrs 0 l₁
          ++ p :: allocatedAddrs (0 + (sumLen l₁ : Int) + 32 + (b.size : Int)) l₂ := by
      rw [allocatedAddrs_append, allocatedAddrs, if_pos hb]
      rw [List.singleton_append]
      rw [show 0 + (sumLen l₁ : Int) + 32 = p from by omega]
    rw [horig] at hperm
    have hperm2 : p :: (allocatedAddrs 0 l₁
        ++ allocatedAddrs (0 + (sumLen l₁ : Int) + 32 + (b.size : Int)) l₂)
          |>.Perm (p :: ps) :=
      (List.perm_middle).symm.trans hperm
    exact List.Perm.cons_inv hperm2

theorem allFree_of_allocatedAddrs_nil :
    ∀ (l : List ABlock) (base : Int), allocatedAddrs base l = [] →
      ∀ b ∈ l, b.status = BlockStatus.FREE := by
  intro l
  induction l with
  | nil => intro base _ b hb; simp at hb
  | cons c rest ih =>
    intro base h b hb
    rw [allocatedAddrs] at h
    rcases List.append_eq_nil.mp h with ⟨h1, h2⟩
    rcases List.mem_cons.mp hb with rfl | hmem
    · by_cases hc : b.status = BlockStatus.ALLOCATED
      · rw [if_pos hc] at h1
        simp at h1
      · cases hst : b.status with
        | FREE => rfl
        | ALLOCATED => exact absurd hst hc
    · exact ih _ h2 b hmem

theorem single_free_of_no_allocated :
    ∀ {l : List ABlock}, l ≠ [] → sumLen l = POOL_SIZE → NoAdjFree l →
      allocatedAddrs 0 l = [] → l = [⟨POOL_SIZE - 32, BlockStatus.FREE⟩] := by
  intro l hne hsum hnaf hempty
  have hfree := allFree_of_allocatedAddrs_nil l 0 hempty
  cases l with
  | nil => exact absurd rfl hne
  | cons b rest =>
    cases rest with
    | nil =>
      obtain ⟨sz, stt⟩ := b
      have hs : stt = BlockStatus.FREE := hfree ⟨sz, stt⟩ (by simp)
      have hsz : sz = POOL_SIZE - 32 := by
        have hz := hsum
        simp only [sumLen_cons, sumLen_nil] at hz
        have : POOL_SIZE = 10240 := by norm_num [POOL_SIZE]
        omega
      rw [hs, hsz]
    | cons b2 rest2 =>
      exfalso
      have hpair := (List.chain'_cons'.mp hnaf).1 b2 (Option.mem_def.mpr rfl)
      exact hpair ⟨hfree b (by simp), hfree b2 (by simp)⟩

/-- C6: starting from the freshly initialized state, any sequence of
successful `allocate` calls followed by `release` of all the returned
handles in any order returns the chain to exactly one FREE block of size
`POOL_SIZE - header_size` spanning the whole arena — the same chain as the
freshly initialized state. -/
theorem c6_round_trip (ss : List Nat) (ps : List Int)
    (hall : ∀ r ∈ (runAllocs readyState ss).2, r ≠ none)
    (hperm : ps.Perm ((runAllocs readyState ss).2.filterMap id)) :
    Models (runFrees (runAllocs readyState ss).1 ps)
        [⟨POOL_SIZE - 32, BlockStatus.FREE⟩]
      ∧ theChain (runFrees (runAllocs readyState ss).1 ps) = theChain readyState := by
  obtain ⟨l', hm', hnaf', hperm'⟩ := runAllocs_inv ss readyState _ models_readyState
    (by rw [NoAdjFree]; simp) hall
  have hA0 : allocatedAddrs 0 [(⟨POOL_SIZE - 32, BlockStatus.FREE⟩ : ABlock)] = [] := by
    simp [allocatedAddrs]
  rw [hA0, List.nil_append] at hperm'
  obtain ⟨lf, hmf, hnaff, hempty⟩ := runFrees_inv ps _ l' hm' hnaf'
    (hperm'.trans hperm.symm)
  have hsingle := single_free_of_no_allocated hmf.2.2.1 hmf.2.2.2.1 hnaff hempty
  rw [hsingle] at hmf
  refine ⟨hmf, ?_⟩
  rw [theChain_of_models hmf, theChain_of_models models_readyState]

theorem c6_witness :
    ((∀ r ∈ (runAllocs readyState [100]).2, r ≠ none)
        ∧ ([(32 : Int)]).Perm ((runAllocs readyState [100]).2.filterMap id))
      ∧ Models (runFrees (runAllocs readyState [100]).1 [32])
          [⟨POOL_SIZE - 32, BlockStatus.FREE⟩]
      ∧ theChain (runFrees (runAllocs readyState [100]).1 [32]) = theChain readyState :=
  ⟨⟨by decide, by decide⟩, c6_round_trip [100] [32] (by decide) (by decide)⟩
